import Mathlib

/-!
Verification of the pyFastBigInt library (src/pyFastBigInt.py).

The library implements three operations on arbitrary-precision integers:
a recursive divide-and-conquer division/modulo (`_divModPositiveArgs` with
the public wrapper `fastBigIntDivMod`), a recursive base-10 stringifier
(`fastBigIntStrBase10` with `_toBase10StringHelper`), and a Newton-iteration
integer square root (`fastBigIntFloorSqrt` with `_floorSqrtPositiveInt`).

The embedding below models Python integers as `Int`.  Python's primitives
are translated as follows:

  - `x.bit_length()`   : `pyBitLength x` (bit length of the absolute value;
    implemented with a fuel counter so that it is structurally recursive and
    reduces in the kernel; the fuel `x.natAbs` is always sufficient).
  - `x >> k`           : `Int.shiftRight x k` (arithmetic shift, floors).
  - `x << k`           : `pyShiftL x k = x * 2^k` (`2^k` is produced with
    `Nat.shiftLeft`, i.e. `1 <<< k`, exactly Python's `1 << k`).
  - `x & ((1<<k)-1)`   : `Int.land x (2^k - 1)`; `Int.land` is the
    two's-complement bitwise AND, which is Python's semantics.
  - `x | y`            : `Int.lor x y`, the two's-complement bitwise OR,
    which is Python's semantics.
  - `divmod(m, n)`     : `pyHostDivMod m n`, Python's floored divmod; it is
    `none` exactly when `n = 0` (Python raises `ZeroDivisionError`).
  - `str(n)` (integer to decimal) : `pyIntStr n`.

`while` loops and recursive functions are modelled with an explicit fuel
argument (`none` = fuel exhausted).  Each `while` loop of the source is a
separate fuel-recursive function; at every call site the fuel passed to a
loop is an expression that is proved (lemmas `corrDown_total`, `corrUp_total`,
`corrUpBitLen_total`, `bruteForceSqrt_spec`, `newtonDecr_spec`,
`newtonIncr_spec`) to be large enough, so the loop models the Python loop
exactly.  The recursion of `_divModPositiveArgs` (together with its inner
long-division loop, which recurses back into it) uses a single fuel that is
decremented on every recursive call and on every long-division iteration;
`divModPositiveArgs_total` shows the canonical fuel `dmFuel` suffices.

Python-level dynamic typing (`isinstance` checks, `TypeError`,
`ValueError`, `ZeroDivisionError`) is modelled with the `PyVal` / `PyErr`
types at the public entry points.
-/

set_option maxRecDepth 100000

namespace PyFastBigInt

/-- `2^k` as a natural number, computed the way Python computes `1 << k`
(kernel-accelerated shift). -/
def pow2 (k : Nat) : Nat := 1 <<< k

theorem pow2_eq (k : Nat) : pow2 k = 2 ^ k := by
  simp [pow2, Nat.shiftLeft_eq]

/-- Bit count of `n < 2^fuel`, one bit per recursion step.  Used for the
lowest 64 bits; this keeps kernel-reduction recursion depth small. -/
def bitLengthSmall : Nat → Nat → Nat
  | 0, _ => 0
  | fuel + 1, n => if n = 0 then 0 else bitLengthSmall fuel (n / 2) + 1

/-- Bit count, 64 bits per recursion step; `fuel = 64` covers `n < 2^4096`. -/
def bitLengthMid : Nat → Nat → Nat
  | 0, _ => 0
  | fuel + 1, n =>
    if n < 1 <<< 64 then bitLengthSmall 64 n
    else bitLengthMid fuel (n / (1 <<< 64)) + 64

/-- Bit count, 4096 bits per recursion step; any `fuel ≥ n` suffices. -/
def bitLengthBig : Nat → Nat → Nat
  | 0, _ => 0
  | fuel + 1, n =>
    if n < 1 <<< 4096 then bitLengthMid 64 n
    else bitLengthBig fuel (n / (1 <<< 4096)) + 4096

/-- Python's `int.bit_length()`: position of the highest set bit of the
absolute value; `0` for zero.  (A host primitive; the layered chunking is
only there to keep kernel-reduction recursion shallow, the characterizing
lemmas `pyBitLength_le_iff` / `lt_pyBitLength_iff` below pin the value.) -/
def pyBitLength (x : Int) : Nat := bitLengthBig x.natAbs x.natAbs

theorem bitLengthSmall_bounds (fuel : Nat) :
    ∀ n : Nat, n < 2 ^ fuel →
      n < 2 ^ bitLengthSmall fuel n ∧ (n ≠ 0 → 2 ^ (bitLengthSmall fuel n - 1) ≤ n) := by
  induction fuel with
  | zero =>
    intro n h
    have : n = 0 := by simpa using Nat.lt_one_iff.mp h
    simp [this, bitLengthSmall]
  | succ fuel ih =>
    intro n h
    by_cases h0 : n = 0
    · simp [h0, bitLengthSmall]
    · have hd : n / 2 < 2 ^ fuel := by
        have h2 : 2 ^ (fuel + 1) = 2 * 2 ^ fuel := by ring
        omega
      obtain ⟨ih1, ih2⟩ := ih (n / 2) hd
      simp only [bitLengthSmall, h0, if_false]
      constructor
      · calc n < 2 * (n / 2 + 1) := by omega
          _ ≤ 2 * 2 ^ bitLengthSmall fuel (n / 2) := by omega
          _ = 2 ^ (bitLengthSmall fuel (n / 2) + 1) := by ring
      · intro _
        by_cases h1 : n / 2 = 0
        · have hn1 : n = 1 := by omega
          subst hn1
          cases fuel <;> simp [bitLengthSmall]
        · have hlow := ih2 h1
          have hpos : 1 ≤ bitLengthSmall fuel (n / 2) := by
            by_contra hc
            have hz : bitLengthSmall fuel (n / 2) = 0 := by omega
            rw [hz] at ih1
            omega
          have hstep : 2 ^ (bitLengthSmall fuel (n / 2) + 1 - 1)
              = 2 * 2 ^ (bitLengthSmall fuel (n / 2) - 1) := by
            have h4 : bitLengthSmall fuel (n / 2) + 1 - 1
                = (bitLengthSmall fuel (n / 2) - 1) + 1 := by omega
            rw [h4]; ring
          rw [hstep]
          have h5 := Nat.mul_le_mul_left 2 hlow
          omega

theorem shiftLeft64_eq : (1 <<< 64 : Nat) = 2 ^ 64 := by
  rw [Nat.shiftLeft_eq]; ring

theorem shiftLeft4096_eq : (1 <<< 4096 : Nat) = 2 ^ 4096 := by
  rw [Nat.shiftLeft_eq]; ring

theorem bitLengthMid_succ (fuel n : Nat) :
    bitLengthMid (fuel + 1) n
      = if n < 2 ^ 64 then bitLengthSmall 64 n
        else bitLengthMid fuel (n / 2 ^ 64) + 64 := by
  simp only [bitLengthMid, shiftLeft64_eq]

theorem bitLengthBig_succ (fuel n : Nat) :
    bitLengthBig (fuel + 1) n
      = if n < 2 ^ 4096 then bitLengthMid 64 n
        else bitLengthBig fuel (n / 2 ^ 4096) + 4096 := by
  simp only [bitLengthBig, shiftLeft4096_eq]

theorem bitLengthMid_bounds (fuel : Nat) :
    ∀ n : Nat, n < 2 ^ (64 * fuel) →
      n < 2 ^ bitLengthMid fuel n ∧ (n ≠ 0 → 2 ^ (bitLengthMid fuel n - 1) ≤ n) := by
  induction fuel with
  | zero =>
    intro n h
    have : n = 0 := by simpa using Nat.lt_one_iff.mp h
    simp [this, bitLengthMid]
  | succ fuel ih =>
    intro n h
    rw [bitLengthMid_succ]
    by_cases hsm : n < 2 ^ 64
    · rw [if_pos hsm]
      exact bitLengthSmall_bounds 64 n hsm
    · rw [if_neg hsm]
      have hge : 2 ^ 64 ≤ n := by omega
      have hd : n / 2 ^ 64 < 2 ^ (64 * fuel) := by
        apply Nat.div_lt_of_lt_mul
        calc n < 2 ^ (64 * (fuel + 1)) := h
          _ = 2 ^ 64 * 2 ^ (64 * fuel) := by rw [← pow_add]; ring_nf
      obtain ⟨ih1, ih2⟩ := ih (n / 2 ^ 64) hd
      have hdm := Nat.div_add_mod n (2 ^ 64)
      have hmlt : n % 2 ^ 64 < 2 ^ 64 := Nat.mod_lt _ (by positivity)
      have hne : n / 2 ^ 64 ≠ 0 := by omega
      have hpos : 1 ≤ bitLengthMid fuel (n / 2 ^ 64) := by
        rcases Nat.eq_zero_or_pos (bitLengthMid fuel (n / 2 ^ 64)) with hz | hp
        · exfalso
          rw [hz, pow_zero] at ih1
          omega
        · exact hp
      constructor
      · calc n < 2 ^ 64 * (n / 2 ^ 64 + 1) := by omega
          _ ≤ 2 ^ 64 * 2 ^ bitLengthMid fuel (n / 2 ^ 64) := by
              have := ih1; omega
          _ = 2 ^ (bitLengthMid fuel (n / 2 ^ 64) + 64) := by
              rw [pow_add]; ring
      · intro _
        have hlow := ih2 hne
        have hstep : bitLengthMid fuel (n / 2 ^ 64) + 64 - 1
            = (bitLengthMid fuel (n / 2 ^ 64) - 1) + 64 := by omega
        rw [hstep, pow_add]
        calc 2 ^ (bitLengthMid fuel (n / 2 ^ 64) - 1) * 2 ^ 64
            ≤ n / 2 ^ 64 * 2 ^ 64 := Nat.mul_le_mul_right _ hlow
          _ ≤ n := by omega

theorem bitLengthBig_bounds (fuel : Nat) :
    ∀ n : Nat, n ≤ fuel →
      n < 2 ^ bitLengthBig fuel n ∧ (n ≠ 0 → 2 ^ (bitLengthBig fuel n - 1) ≤ n) := by
  induction fuel with
  | zero =>
    intro n h
    have : n = 0 := by omega
    simp [this, bitLengthBig]
  | succ fuel ih =>
    intro n h
    rw [bitLengthBig_succ]
    by_cases hsm : n < 2 ^ 4096
    · rw [if_pos hsm]
      apply bitLengthMid_bounds 64 n
      have h2 : (64 * 64 : Nat) = 4096 := by norm_num
      rw [h2]
      exact hsm
    · rw [if_neg hsm]
      have hge : 2 ^ 4096 ≤ n := by omega
      have hd : n / 2 ^ 4096 ≤ fuel := by
        have hbig : (2:Nat) ≤ 2 ^ 4096 := by
          calc (2:Nat) = 2 ^ 1 := by ring
            _ ≤ 2 ^ 4096 := Nat.pow_le_pow_right (by norm_num) (by norm_num)
        have h2 : n / 2 ^ 4096 < n := Nat.div_lt_self (by omega) (by omega)
        omega
      obtain ⟨ih1, ih2⟩ := ih (n / 2 ^ 4096) hd
      have hdm := Nat.div_add_mod n (2 ^ 4096)
      have hmlt : n % 2 ^ 4096 < 2 ^ 4096 := Nat.mod_lt _ (by positivity)
      have hne : n / 2 ^ 4096 ≠ 0 := by omega
      have hpos : 1 ≤ bitLengthBig fuel (n / 2 ^ 4096) := by
        rcases Nat.eq_zero_or_pos (bitLengthBig fuel (n / 2 ^ 4096)) with hz | hp
        · exfalso
          rw [hz, pow_zero] at ih1
          omega
        · exact hp
      constructor
      · calc n < 2 ^ 4096 * (n / 2 ^ 4096 + 1) := by omega
          _ ≤ 2 ^ 4096 * 2 ^ bitLengthBig fuel (n / 2 ^ 4096) := by
              have := ih1; omega
          _ = 2 ^ (bitLengthBig fuel (n / 2 ^ 4096) + 4096) := by
              rw [pow_add]; ring
      · intro _
        have hlow := ih2 hne
        have hstep : bitLengthBig fuel (n / 2 ^ 4096) + 4096 - 1
            = (bitLengthBig fuel (n / 2 ^ 4096) - 1) + 4096 := by omega
        rw [hstep, pow_add]
        calc 2 ^ (bitLengthBig fuel (n / 2 ^ 4096) - 1) * 2 ^ 4096
            ≤ n / 2 ^ 4096 * 2 ^ 4096 := Nat.mul_le_mul_right _ hlow
          _ ≤ n := by omega

/-- Characterization: `pyBitLength x ≤ L` iff `|x| < 2^L`. -/
theorem pyBitLength_le_iff (x : Int) (L : Nat) :
    pyBitLength x ≤ L ↔ x.natAbs < 2 ^ L := by
  obtain ⟨h1, h2⟩ := bitLengthBig_bounds x.natAbs x.natAbs (Nat.le_refl _)
  constructor
  · intro h
    exact lt_of_lt_of_le h1 (Nat.pow_le_pow_right (by norm_num) h)
  · intro h
    by_contra hc
    push_neg at hc
    by_cases h0 : x.natAbs = 0
    · rw [pyBitLength, h0] at hc
      simp [bitLengthBig] at hc
    · have h3 : 2 ^ L ≤ 2 ^ (pyBitLength x - 1) := by
        apply Nat.pow_le_pow_right (by norm_num)
        omega
      have : 2 ^ L ≤ x.natAbs := le_trans h3 (h2 h0)
      omega

/-- Characterization: `L < pyBitLength x` iff `2^L ≤ |x|`. -/
theorem lt_pyBitLength_iff (x : Int) (L : Nat) :
    L < pyBitLength x ↔ 2 ^ L ≤ x.natAbs := by
  constructor
  · intro h
    by_contra hc
    push_neg at hc
    have := (pyBitLength_le_iff x L).mpr hc
    omega
  · intro h
    by_contra hc
    push_neg at hc
    have := (pyBitLength_le_iff x L).mp hc
    omega

theorem pyBitLength_zero : pyBitLength 0 = 0 := rfl

/-- For nonnegative `x`, `x < 2 ^ pyBitLength x`. -/
theorem lt_two_pow_pyBitLength (x : Int) (hx : 0 ≤ x) :
    x < ((2 ^ pyBitLength x : Nat) : Int) := by
  have h := (bitLengthBig_bounds x.natAbs x.natAbs (Nat.le_refl _)).1
  have h2 : ((x.natAbs : Nat) : Int) < ((2 ^ pyBitLength x : Nat) : Int) := by
    exact_mod_cast h
  rwa [Int.natAbs_of_nonneg hx] at h2

/-- For positive `x`, `2 ^ (pyBitLength x - 1) ≤ x`. -/
theorem two_pow_pyBitLength_le (x : Int) (hx : 0 < x) :
    ((2 ^ (pyBitLength x - 1) : Nat) : Int) ≤ x := by
  have h0 : x.natAbs ≠ 0 := by
    intro h
    have := Int.natAbs_eq_zero.mp h
    omega
  have h := (bitLengthBig_bounds x.natAbs x.natAbs (Nat.le_refl _)).2 h0
  have h2 : ((2 ^ (pyBitLength x - 1) : Nat) : Int) ≤ ((x.natAbs : Nat) : Int) := by
    exact_mod_cast h
  rwa [Int.natAbs_of_nonneg (le_of_lt hx)] at h2

/-- Python `x << k` (left shift is multiplication by `2^k` for every sign). -/
def pyShiftL (x : Int) (k : Nat) : Int := x * (pow2 k : Nat)

theorem pyShiftL_eq (x : Int) (k : Nat) : pyShiftL x k = x * 2 ^ k := by
  simp [pyShiftL, pow2_eq]

/-- Python `x >> k` (arithmetic right shift, floors). -/
def pyShiftR (x : Int) (k : Nat) : Int := Int.shiftRight x k

theorem pyShiftR_eq (x : Int) (k : Nat) : pyShiftR x k = x / (2 ^ k : Nat) := by
  have := Int.shiftRight_eq_div_pow x k
  simpa [pyShiftR] using this

/-- Key bit fact: below position `e`, the bits of `2^e - 1 - l` are the
complements of the bits of `l` (for `l < 2^e`). -/
theorem testBit_two_pow_sub_one_sub (e : Nat) :
    ∀ l i : Nat, l < 2 ^ e → i < e →
      (2 ^ e - 1 - l).testBit i = !(l.testBit i) := by
  induction e with
  | zero => intro l i _ hi; omega
  | succ e ih =>
    intro l i hl hi
    cases i with
    | zero =>
      rw [Nat.testBit_zero, Nat.testBit_zero]
      have h2 : 2 ^ (e + 1) = 2 * 2 ^ e := by ring
      rw [h2] at hl
      have hpar : (2 * 2 ^ e - 1 - l) % 2 = (l + 1) % 2 := by omega
      rw [h2, hpar]
      by_cases hp : l % 2 = 1
      · simp [hp, show (l + 1) % 2 = 0 by omega]
      · simp [hp, show (l + 1) % 2 = 1 by omega]
    | succ i =>
      rw [Nat.testBit_succ, Nat.testBit_succ]
      have h2 : 2 ^ (e + 1) = 2 * 2 ^ e := by ring
      rw [h2] at hl
      have hdiv : (2 ^ (e + 1) - 1 - l) / 2 = 2 ^ e - 1 - l / 2 := by
        rw [h2]; omega
      rw [hdiv]
      exact ih (l / 2) i (by omega) (by omega)

theorem ldiff_zero_right (x : Nat) : Nat.ldiff x 0 = x := by
  apply Nat.eq_of_testBit_eq
  intro i
  simp [Nat.testBit_ldiff]

/-- `Nat.ldiff (2^b - 1) m` keeps exactly the complement of the low `b` bits
of `m`, i.e. equals `2^b - 1 - m % 2^b`. -/
theorem ldiff_two_pow_sub_one (b m : Nat) :
    Nat.ldiff (2 ^ b - 1) m = 2 ^ b - 1 - m % 2 ^ b := by
  apply Nat.eq_of_testBit_eq
  intro i
  rw [Nat.testBit_ldiff, Nat.testBit_two_pow_sub_one]
  by_cases hi : i < b
  · rw [testBit_two_pow_sub_one_sub b (m % 2 ^ b) i (Nat.mod_lt _ (by positivity)) hi]
    rw [Nat.testBit_mod_two_pow]
    simp [hi]
  · have hval : 2 ^ b - 1 - m % 2 ^ b < 2 ^ i := by
      have h1 : 2 ^ b ≤ 2 ^ i := Nat.pow_le_pow_right (by norm_num) (by omega)
      omega
    rw [Nat.testBit_lt_two_pow hval]
    simp [hi]

/-- A left-shifted value OR-ed with a value fitting the shift amount is
their sum (`Nat` version). -/
theorem nat_lor_shift (a l e : Nat) (hl : l < 2 ^ e) :
    (a * 2 ^ e) ||| l = a * 2 ^ e + l := by
  apply Nat.eq_of_testBit_eq
  intro i
  rw [Nat.testBit_lor]
  have h1 : (a * 2 ^ e).testBit i = if i < e then false else a.testBit (i - e) := by
    have h0 : (0 : Nat) < 2 ^ e := by positivity
    have := Nat.testBit_mul_pow_two_add a h0 i
    simpa [Nat.mul_comm] using this
  have h2 : (a * 2 ^ e + l).testBit i = if i < e then l.testBit i else a.testBit (i - e) := by
    have := Nat.testBit_mul_pow_two_add a hl i
    rw [Nat.mul_comm] at this
    exact this
  rw [h1, h2]
  by_cases hi : i < e
  · simp [hi]
  · have : l.testBit i = false := Nat.testBit_lt_two_pow
      (lt_of_lt_of_le hl (Nat.pow_le_pow_right (by norm_num) (by omega)))
    simp [hi, this]

/-- `Nat.ldiff` of a number whose low `e` bits are all ones, by a value
`l < 2^e`, is plain subtraction of `l`. -/
theorem ldiff_low_ones (e w l : Nat) (hl : l < 2 ^ e) :
    Nat.ldiff (w * 2 ^ e + (2 ^ e - 1)) l = w * 2 ^ e + (2 ^ e - 1) - l := by
  apply Nat.eq_of_testBit_eq
  intro i
  rw [Nat.testBit_ldiff]
  have hones : 2 ^ e - 1 < 2 ^ e := by
    have : (0:Nat) < 2 ^ e := by positivity
    omega
  have h1 : (w * 2 ^ e + (2 ^ e - 1)).testBit i
      = if i < e then (2 ^ e - 1).testBit i else w.testBit (i - e) := by
    have := Nat.testBit_mul_pow_two_add w hones i
    rw [Nat.mul_comm] at this
    exact this
  have hsub : w * 2 ^ e + (2 ^ e - 1) - l = w * 2 ^ e + (2 ^ e - 1 - l) := by omega
  have h2 : (w * 2 ^ e + (2 ^ e - 1) - l).testBit i
      = if i < e then (2 ^ e - 1 - l).testBit i else w.testBit (i - e) := by
    rw [hsub]
    have hlt : 2 ^ e - 1 - l < 2 ^ e := by omega
    have := Nat.testBit_mul_pow_two_add w hlt i
    rw [Nat.mul_comm] at this
    exact this
  rw [h1, h2]
  by_cases hi : i < e
  · rw [Nat.testBit_two_pow_sub_one]
    rw [testBit_two_pow_sub_one_sub e l i hl hi]
    simp [hi]
  · have : l.testBit i = false := Nat.testBit_lt_two_pow
      (lt_of_lt_of_le hl (Nat.pow_le_pow_right (by norm_num) (by omega)))
    simp [hi, this]

/-- Python's bitwise AND with the low-bit mask `(1 << b) - 1` extracts the
Euclidean remainder modulo `2^b`, for integers of either sign. -/
theorem land_mask_eq_emod (x : Int) (b : Nat) :
    Int.land x (((pow2 b : Nat) : Int) - 1) = x % ((2 ^ b : Nat) : Int) := by
  have hp : ((pow2 b : Nat) : Int) - 1 = ((2 ^ b - 1 : Nat) : Int) := by
    rw [pow2_eq]
    have : (1:Nat) ≤ 2 ^ b := Nat.one_le_two_pow
    omega
  rw [hp]
  cases x with
  | ofNat m =>
    have hdef : Int.land (Int.ofNat m) ((2 ^ b - 1 : Nat) : Int)
        = ((m &&& (2 ^ b - 1) : Nat) : Int) := rfl
    rw [hdef, Nat.and_pow_two_sub_one_eq_mod]
    have h6 : Int.ofNat m % ((2 ^ b : Nat) : Int) = ((m % 2 ^ b : Nat) : Int) := by
      norm_cast
    rw [h6]
  | negSucc m =>
    have hdef : Int.land (Int.negSucc m) ((2 ^ b - 1 : Nat) : Int)
        = ((Nat.ldiff (2 ^ b - 1) m : Nat) : Int) := rfl
    rw [hdef, ldiff_two_pow_sub_one]
    have hmod := Nat.div_add_mod m (2 ^ b)
    have hble : (1:Nat) ≤ 2 ^ b := Nat.one_le_two_pow
    have hmlt : m % 2 ^ b < 2 ^ b := Nat.mod_lt _ (by positivity)
    have hq : Int.negSucc m
        = ((2 ^ b : Nat) : Int) * (-(((m / 2 ^ b : Nat) : Int) + 1))
          + ((2 ^ b - 1 - m % 2 ^ b : Nat) : Int) := by
      rw [Int.negSucc_eq]
      have hcast : ((2 ^ b - 1 - m % 2 ^ b : Nat) : Int)
          = ((2 ^ b : Nat) : Int) - 1 - ((m % 2 ^ b : Nat) : Int) := by
        omega
      rw [hcast]
      have hcast2 : ((2 ^ b : Nat) : Int) * ((m / 2 ^ b : Nat) : Int)
          + ((m % 2 ^ b : Nat) : Int) = (m : Int) := by
        exact_mod_cast hmod
      linear_combination hcast2
    have := (Int.ediv_emod_unique (a := Int.negSucc m)
      (b := ((2 ^ b : Nat) : Int))
      (q := -(((m / 2 ^ b : Nat) : Int) + 1))
      (r := ((2 ^ b - 1 - m % 2 ^ b : Nat) : Int))
      (by exact_mod_cast Nat.pos_pow_of_pos b (by norm_num))).mpr
    have hres := this ⟨by linear_combination -hq, by positivity, by
      have : (2 ^ b - 1 - m % 2 ^ b : Nat) < 2 ^ b := by omega
      exact_mod_cast this⟩
    exact hres.2.symm

/-- Python's `|` of a left-shifted value with a nonnegative value fitting in
the shift amount is their sum, for a left operand of either sign. -/
theorem lor_shift_add (x : Int) (e : Nat) (lo : Int)
    (h0 : 0 ≤ lo) (hlt : lo < ((2 ^ e : Nat) : Int)) :
    Int.lor (x * ((2 ^ e : Nat) : Int)) lo = x * ((2 ^ e : Nat) : Int) + lo := by
  obtain ⟨l, rfl⟩ := Int.eq_ofNat_of_zero_le h0
  have hl : l < 2 ^ e := by exact_mod_cast hlt
  cases x with
  | ofNat a =>
    have hmul : Int.ofNat a * ((2 ^ e : Nat) : Int) = ((a * 2 ^ e : Nat) : Int) := by
      exact_mod_cast rfl
    rw [hmul]
    have hdef : Int.lor ((a * 2 ^ e : Nat) : Int) ((l : Nat) : Int)
        = (((a * 2 ^ e) ||| l : Nat) : Int) := rfl
    rw [hdef, nat_lor_shift a l e hl]
    exact_mod_cast rfl
  | negSucc u =>
    have hone : (1:Nat) ≤ 2 ^ e := Nat.one_le_two_pow
    have hmul : Int.negSucc u * ((2 ^ e : Nat) : Int)
        = Int.negSucc (u * 2 ^ e + (2 ^ e - 1)) := by
      rw [Int.negSucc_eq, Int.negSucc_eq]
      have hcast : ((u * 2 ^ e + (2 ^ e - 1) : Nat) : Int)
          = (u : Int) * ((2 ^ e : Nat) : Int) + ((2 ^ e : Nat) : Int) - 1 := by
        push_cast [Nat.cast_sub hone]
        ring
      rw [hcast]
      ring
    rw [hmul]
    have hdef : Int.lor (Int.negSucc (u * 2 ^ e + (2 ^ e - 1))) ((l : Nat) : Int)
        = Int.negSucc (Nat.ldiff (u * 2 ^ e + (2 ^ e - 1)) l) := rfl
    rw [hdef, ldiff_low_ones e u l hl]
    rw [Int.negSucc_eq, Int.negSucc_eq]
    have hle : l ≤ u * 2 ^ e + (2 ^ e - 1) := by
      have : l ≤ 2 ^ e - 1 := by omega
      omega
    push_cast [Nat.cast_sub hle, Nat.cast_sub hone]
    ring

/-- `_splitHiLo(num, bitIdx)` (src lines 330-336):
`hi = num >> bitIdx`, `lo = num & ((1 << bitIdx) - 1)`. -/
def _splitHiLo (num : Int) (bitIdx : Nat) : Int × Int :=
  (pyShiftR num bitIdx, Int.land num (((pow2 bitIdx : Nat) : Int) - 1))

theorem splitHiLo_fst (num : Int) (b : Nat) :
    (_splitHiLo num b).1 = num / ((2 ^ b : Nat) : Int) := by
  simp [_splitHiLo, pyShiftR_eq]

theorem splitHiLo_snd (num : Int) (b : Nat) :
    (_splitHiLo num b).2 = num % ((2 ^ b : Nat) : Int) := by
  simp [_splitHiLo, land_mask_eq_emod]

/-- Split invariant: `num = hi * 2^b + lo`. -/
theorem splitHiLo_recompose (num : Int) (b : Nat) :
    (_splitHiLo num b).1 * ((2 ^ b : Nat) : Int) + (_splitHiLo num b).2 = num := by
  rw [splitHiLo_fst, splitHiLo_snd]
  have := Int.ediv_add_emod num ((2 ^ b : Nat) : Int)
  linarith

theorem splitHiLo_snd_nonneg (num : Int) (b : Nat) : 0 ≤ (_splitHiLo num b).2 := by
  rw [splitHiLo_snd]
  apply Int.emod_nonneg
  have : (0:Nat) < 2 ^ b := by positivity
  exact_mod_cast this.ne.symm

theorem splitHiLo_snd_lt (num : Int) (b : Nat) :
    (_splitHiLo num b).2 < ((2 ^ b : Nat) : Int) := by
  rw [splitHiLo_snd]
  apply Int.emod_lt_of_pos
  exact_mod_cast Nat.pos_pow_of_pos b (by norm_num)

theorem splitHiLo_fst_nonneg (num : Int) (b : Nat) (h : 0 ≤ num) :
    0 ≤ (_splitHiLo num b).1 := by
  rw [splitHiLo_fst]
  apply Int.ediv_nonneg h
  have : (0:Nat) < 2 ^ b := by positivity
  exact_mod_cast le_of_lt this

/-- Python's `divmod` host primitive: floored division, failing (with
`ZeroDivisionError`) exactly when the divisor is zero. -/
def pyHostDivMod (m n : Int) : Option (Int × Int) :=
  if n = 0 then none else some (Int.fdiv m n, Int.fmod m n)

theorem pyHostDivMod_pos (m n : Int) (hn : 0 < n) :
    pyHostDivMod m n = some (m / n, m % n) := by
  rw [pyHostDivMod, if_neg hn.ne.symm, Int.fdiv_eq_ediv m hn.le, Int.fmod_eq_emod m hn.le]

/-- The source's `while r < 0: r += n; q -= 1` correction loop. -/
def corrDown : Nat → Int → Int → Int → Option (Int × Int)
  | 0, _, _, _ => none
  | fuel + 1, n, q, r => if r < 0 then corrDown fuel n (q - 1) (r + n) else some (q, r)

/-- The source's `while r >= n: r -= n; q += 1` correction loop. -/
def corrUp : Nat → Int → Int → Int → Option (Int × Int)
  | 0, _, _, _ => none
  | fuel + 1, n, q, r => if n ≤ r then corrUp fuel n (q + 1) (r - n) else some (q, r)

/-- The source's `while r1.bit_length() >= k: r1 -= n; q1 += 1` correction
loop of the ideal branch. -/
def corrUpBitLen : Nat → Nat → Int → Int → Int → Option (Int × Int)
  | 0, _, _, _, _ => none
  | fuel + 1, k, n, q, r =>
    if k ≤ pyBitLength r then corrUpBitLen fuel k n (q + 1) (r - n) else some (q, r)

theorem corrDown_spec (fuel : Nat) (n : Int) :
    ∀ q r q' r', corrDown fuel n q r = some (q', r') →
      q' * n + r' = q * n + r ∧ 0 ≤ r' := by
  induction fuel with
  | zero => intro q r q' r' h; simp [corrDown] at h
  | succ fuel ih =>
    intro q r q' r' h
    rw [corrDown] at h
    by_cases hr : r < 0
    · rw [if_pos hr] at h
      obtain ⟨hid, hnn⟩ := ih (q - 1) (r + n) q' r' h
      exact ⟨by linarith [hid], hnn⟩
    · rw [if_neg hr] at h
      simp only [Option.some.injEq, Prod.mk.injEq] at h
      obtain ⟨rfl, rfl⟩ := h
      exact ⟨rfl, not_lt.mp hr⟩

theorem corrUp_spec (fuel : Nat) (n : Int) :
    ∀ q r q' r', corrUp fuel n q r = some (q', r') →
      q' * n + r' = q * n + r ∧ r' < n ∧ (0 ≤ r → 0 ≤ r') := by
  induction fuel with
  | zero => intro q r q' r' h; simp [corrUp] at h
  | succ fuel ih =>
    intro q r q' r' h
    rw [corrUp] at h
    by_cases hr : n ≤ r
    · rw [if_pos hr] at h
      obtain ⟨hid, hlt, hnn⟩ := ih (q + 1) (r - n) q' r' h
      exact ⟨by linarith [hid], hlt, fun _ => hnn (by linarith)⟩
    · rw [if_neg hr] at h
      simp only [Option.some.injEq, Prod.mk.injEq] at h
      obtain ⟨rfl, rfl⟩ := h
      exact ⟨rfl, not_le.mp hr, fun h => h⟩

theorem corrUpBitLen_spec (fuel k : Nat) (n : Int) :
    ∀ q r q' r', corrUpBitLen fuel k n q r = some (q', r') →
      q' * n + r' = q * n + r ∧ pyBitLength r' < k := by
  induction fuel with
  | zero => intro q r q' r' h; simp [corrUpBitLen] at h
  | succ fuel ih =>
    intro q r q' r' h
    rw [corrUpBitLen] at h
    by_cases hr : k ≤ pyBitLength r
    · rw [if_pos hr] at h
      obtain ⟨hid, hlt⟩ := ih (q + 1) (r - n) q' r' h
      exact ⟨by linarith [hid], hlt⟩
    · rw [if_neg hr] at h
      simp only [Option.some.injEq, Prod.mk.injEq] at h
      obtain ⟨rfl, rfl⟩ := h
      exact ⟨rfl, not_le.mp hr⟩

theorem corrDown_total (n : Int) (hn : 0 < n) :
    ∀ (fuel : Nat) (q r : Int), r.natAbs + 1 ≤ fuel →
      (corrDown fuel n q r).isSome := by
  intro fuel
  induction fuel with
  | zero => intro q r h; omega
  | succ fuel ih =>
    intro q r h
    rw [corrDown]
    by_cases hr : r < 0
    · rw [if_pos hr]
      by_cases hr2 : r + n < 0
      · apply ih
        have h1 : (r + n).natAbs < r.natAbs := by omega
        omega
      · obtain ⟨fuel', rfl⟩ : ∃ f, fuel = f + 1 := ⟨fuel - 1, by omega⟩
        rw [corrDown, if_neg hr2]
        simp
    · rw [if_neg hr]; simp

theorem corrUp_total (n : Int) (hn : 0 < n) :
    ∀ (fuel : Nat) (q r : Int), r.natAbs + 1 ≤ fuel →
      (corrUp fuel n q r).isSome := by
  intro fuel
  induction fuel with
  | zero => intro q r h; omega
  | succ fuel ih =>
    intro q r h
    rw [corrUp]
    by_cases hr : n ≤ r
    · rw [if_pos hr]
      apply ih
      have h1 : (r - n).natAbs < r.natAbs := by omega
      omega
    · rw [if_neg hr]; simp

theorem corrUpBitLen_total (k : Nat) (n : Int) (hn : 0 < n)
    (hk : pyBitLength n = k) :
    ∀ (fuel : Nat) (q r : Int), 0 ≤ r → r.natAbs + 2 ≤ fuel →
      (corrUpBitLen fuel k n q r).isSome := by
  have hklb : ((2 ^ (k - 1) : Nat) : Int) ≤ n := hk ▸ two_pow_pyBitLength_le n hn
  have hkub : n < ((2 ^ k : Nat) : Int) := by
    have := lt_two_pow_pyBitLength n hn.le
    rwa [hk] at this
  intro fuel
  induction fuel with
  | zero => intro q r h0 h; omega
  | succ fuel ih =>
    intro q r h0 h
    rw [corrUpBitLen]
    by_cases hr : k ≤ pyBitLength r
    · rw [if_pos hr]
      by_cases hub : n ≤ r
      · apply ih _ (r - n) (by linarith)
        have h1 : (r - n).natAbs < r.natAbs := by omega
        omega
      · -- `r < n` but the bit-length test still fired: one more subtraction
        -- drops below `2^(k-1)` in absolute value and the loop exits.
        have hk1 : 1 ≤ k := by
          by_contra hk0
          have hkz : k = 0 := by omega
          rw [hkz] at hk
          have : n.natAbs < 2 ^ 0 := (pyBitLength_le_iff n 0).mp (by omega)
          omega
        have hrlb : ((2 ^ (k - 1) : Nat) : Int) ≤ r := by
          have h2 := (lt_pyBitLength_iff r (k - 1)).mp (by omega)
          have h3 : ((2 ^ (k - 1) : Nat) : Int) ≤ (r.natAbs : Int) := by exact_mod_cast h2
          rwa [Int.natAbs_of_nonneg h0] at h3
        have hexit : pyBitLength (r - n) < k := by
          have hsplit : ((2 ^ k : Nat) : Int) = 2 * ((2 ^ (k - 1) : Nat) : Int) := by
            have h8 : k = (k - 1) + 1 := by omega
            have h9 : (2 ^ k : Nat) = 2 * 2 ^ (k - 1) := by
              conv_lhs => rw [h8]
              ring
            exact_mod_cast h9
          have habs : (r - n).natAbs < 2 ^ (k - 1) := by
            have h10 : ((r - n).natAbs : Int) < ((2 ^ (k - 1) : Nat) : Int) := by omega
            exact_mod_cast h10
          have h11 := (pyBitLength_le_iff (r - n) (k - 1)).mpr habs
          omega
        obtain ⟨fuel', rfl⟩ : ∃ f, fuel = f + 1 := ⟨fuel - 1, by omega⟩
        rw [corrUpBitLen, if_neg (Nat.not_le.mpr hexit)]
        simp
    · rw [if_neg hr]; simp

theorem natCast_two_pow (e : Nat) : ((2 ^ e : Nat) : Int) = (2 : Int) ^ e := by
  push_cast
  rfl

theorem two_pow_pos (e : Nat) : (0 : Int) < 2 ^ e := by positivity

theorem pyShiftR_eq_ediv (x : Int) (k : Nat) : pyShiftR x k = x / (2 : Int) ^ k := by
  rw [pyShiftR_eq, natCast_two_pow]

theorem splitHiLo_fst_ediv (num : Int) (b : Nat) :
    (_splitHiLo num b).1 = num / (2 : Int) ^ b := by
  rw [splitHiLo_fst, natCast_two_pow]

theorem splitHiLo_snd_emod (num : Int) (b : Nat) :
    (_splitHiLo num b).2 = num % (2 : Int) ^ b := by
  rw [splitHiLo_snd, natCast_two_pow]

theorem splitHiLo_eq (num : Int) (b : Nat) :
    (_splitHiLo num b).1 * (2 : Int) ^ b + (_splitHiLo num b).2 = num := by
  have := splitHiLo_recompose num b
  rwa [natCast_two_pow] at this

theorem splitHiLo_snd_lt_pow (num : Int) (b : Nat) :
    (_splitHiLo num b).2 < (2 : Int) ^ b := by
  have := splitHiLo_snd_lt num b
  rwa [natCast_two_pow] at this

theorem lor_pyShiftL_add (x : Int) (e : Nat) (lo : Int)
    (h0 : 0 ≤ lo) (hlt : lo < (2 : Int) ^ e) :
    Int.lor (pyShiftL x e) lo = x * (2 : Int) ^ e + lo := by
  have h := lor_shift_add x e lo h0 (by rwa [natCast_two_pow])
  rw [natCast_two_pow] at h
  rw [pyShiftL, pow2_eq, natCast_two_pow]
  exact h

theorem int_lt_two_pow_pyBitLength (x : Int) (hx : 0 ≤ x) :
    x < (2 : Int) ^ pyBitLength x := by
  have := lt_two_pow_pyBitLength x hx
  rwa [natCast_two_pow] at this

theorem int_two_pow_pyBitLength_le (x : Int) (hx : 0 < x) :
    (2 : Int) ^ (pyBitLength x - 1) ≤ x := by
  have := two_pow_pyBitLength_le x hx
  rwa [natCast_two_pow] at this

theorem pyBitLength_pos (x : Int) (hx : 0 < x) : 1 ≤ pyBitLength x := by
  rw [show (1:Nat) = 0 + 1 from rfl, Nat.add_one_le_iff, lt_pyBitLength_iff]
  omega

/-- The high part of a positive `n` split below its top bit is positive:
this is the fact that makes the `n_hi == 0` debug guard unreachable. -/
theorem splitHiLo_fst_pos (n : Int) (e : Nat) (hn : 0 < n)
    (he : e ≤ pyBitLength n - 1) : 0 < (_splitHiLo n e).1 := by
  rw [splitHiLo_fst_ediv]
  have h1 : (2 : Int) ^ e ≤ n := by
    calc (2 : Int) ^ e ≤ 2 ^ (pyBitLength n - 1) := by
          apply pow_le_pow_right (by norm_num) he
      _ ≤ n := int_two_pow_pyBitLength_le n hn
  have h2 : (1 : Int) ≤ n / 2 ^ e := by
    rw [Int.le_ediv_iff_mul_le (two_pow_pos e)]
    simpa using h1
  omega

/-- Quotient bound: a nonnegative value below `2^(a+b)` shifted right by `a`
is below `2^b`. -/
theorem ediv_pow_lt (x : Int) (a b : Nat) (h0 : 0 ≤ x)
    (h : x < (2 : Int) ^ (a + b)) : x / (2 : Int) ^ a < (2 : Int) ^ b := by
  rw [Int.ediv_lt_iff_lt_mul (two_pow_pos a)]
  calc x < (2 : Int) ^ (a + b) := h
    _ = 2 ^ b * 2 ^ a := by rw [pow_add]; ring

/-- The `if k & 1: q2 <<= 1` step aligns the second half-quotient:
multiplying by `2^⌊k/2⌋` after the conditional doubling equals multiplying
the raw quotient by `2^⌈k/2⌉`. -/
theorem shift_parity (k : Nat) (q2 : Int) :
    (if k % 2 = 1 then pyShiftL q2 1 else q2) * (2 : Int) ^ (k / 2)
      = q2 * (2 : Int) ^ (k - k / 2) := by
  by_cases hk : k % 2 = 1
  · rw [if_pos hk, pyShiftL_eq]
    have h2 : k - k / 2 = k / 2 + 1 := by omega
    rw [h2, pow_succ]
    ring
  · rw [if_neg hk]
    have h2 : k - k / 2 = k / 2 := by omega
    rw [h2]

mutual

/-- `_divModPositiveArgs(m, n)` (src lines 65-255): the recursive
divide-and-conquer division kernel.  The first argument is recursion fuel,
decremented on every recursive call and on every iteration of the
long-division loop; each `while` correction loop receives a local fuel that
is always sufficient (see `corrDown_total`, `corrUp_total`,
`corrUpBitLen_total`), so `none` can only arise from exhausted recursion
fuel or from the host `divmod` receiving a zero divisor.  The source's
debug `print` in the `n_hi == 0` case of the fourth branch does not change
the returned value and is not modelled (theorem `c8_no_logging` shows its
guard is unreachable). -/
def _divModPositiveArgs : Nat → Int → Int → Option (Int × Int)
  | 0, _, _ => none
  | fuel + 1, m, n =>
    let m_len := pyBitLength m
    let n_len := pyBitLength n
    if pyBitLength n < 10000 then
      -- bailout to native case
      pyHostDivMod m n
    else if m_len < n_len then
      some (0, m)
    else if m_len = n_len then
      -- q = 0; r = m; while r >= n: r -= n; q += 1
      corrUp (m.natAbs + 1) n 0 m
    else if m_len < 2 * n_len then
      let k := m_len - n_len
      let excess_bits := n_len - k
      let m_hi := (_splitHiLo m excess_bits).1
      let m_lo := (_splitHiLo m excess_bits).2
      let n_hi := (_splitHiLo n excess_bits).1
      let n_lo := (_splitHiLo n excess_bits).2
      match _divModPositiveArgs fuel m_hi n_hi with
      | none => none
      | some (q, r) =>
        -- r = ((r << excess_bits) | m_lo) - n_lo * q
        let r1 := Int.lor (pyShiftL r excess_bits) m_lo - n_lo * q
        match corrDown (r1.natAbs + 1) n q r1 with
        | none => none
        | some (q, r) =>
          match corrUp (r.natAbs + 1) n q r with
          | none => none
          | some (q, r) => some (q, r)
    else if m_len = 2 * n_len then
      let k := n_len
      let kh_floor := k / 2
      let kh_ceil := k - kh_floor
      let m_hi := (_splitHiLo m k).1
      let m_mid0 := (_splitHiLo m k).2
      let m_mid := (_splitHiLo m_mid0 kh_ceil).1
      let m_lo := (_splitHiLo m_mid0 kh_ceil).2
      let n_hi := (_splitHiLo n kh_floor).1
      let n_lo := (_splitHiLo n kh_floor).2
      match _divModPositiveArgs fuel m_hi n_hi with
      | none => none
      | some (q1, r1) =>
        -- r1 = ((r1 << kh_floor) | m_mid) - n_lo * q1
        let r1b := Int.lor (pyShiftL r1 kh_floor) m_mid - n_lo * q1
        match corrDown (r1b.natAbs + 1) n q1 r1b with
        | none => none
        | some (q1, r1) =>
          match corrUpBitLen (r1.natAbs + 2) k n q1 r1 with
          | none => none
          | some (q1, r1) =>
            match _divModPositiveArgs fuel r1 n_hi with
            | none => none
            | some (q2, r2) =>
              -- if k & 1: q2 <<= 1
              let q2b := if k % 2 = 1 then pyShiftL q2 1 else q2
              -- r2 = ((r2 << kh_ceil) | m_lo) - n_lo * q2
              let r2b := Int.lor (pyShiftL r2 kh_ceil) m_lo - n_lo * q2b
              match corrDown (r2b.natAbs + 1) n q2b r2b with
              | none => none
              | some (q2, r2) =>
                match corrUp (r2.natAbs + 1) n q2 r2 with
                | none => none
                | some (q2, r2) =>
                  some (pyShiftL q1 kh_ceil + q2, r2)
    else
      -- the remaining case: m_len > 2 * n_len: long division in base 2^k.
      -- In this branch the initial `remainingBits = r.bit_length() - 2*k`
      -- is positive, so the `Nat` subtraction below is exact.
      let k := pyBitLength n
      longDivLoop fuel k n 0 m (pyBitLength m - 2 * k)

/-- The `while r > n` long-division loop of the last branch of
`_divModPositiveArgs` (src lines 240-255), with the accumulated quotient
`q`, working remainder `r` and `remainingBits` as loop state.  Python's
`max(r.bit_length() - 2 * k, 0)` and the always-nonnegative
`bitsProcessed = remainingBits - newRemainingBits` are `Nat` subtractions. -/
def longDivLoop : Nat → Nat → Int → Int → Int → Nat → Option (Int × Int)
  | 0, _, _, _, _, _ => none
  | fuel + 1, k, n, q, r, remainingBits =>
    if n < r then
      let newRemainingBits := pyBitLength r - 2 * k
      let bitsProcessed := remainingBits - newRemainingBits
      let q1 := pyShiftL q bitsProcessed
      let r_hi := (_splitHiLo r newRemainingBits).1
      let r_lo := (_splitHiLo r newRemainingBits).2
      match _divModPositiveArgs fuel r_hi n with
      | none => none
      | some (qi, r2) =>
        -- r = (r << remainingBits) | r_lo ; q += qi
        longDivLoop fuel k n (q1 + qi)
          (Int.lor (pyShiftL r2 newRemainingBits) r_lo) newRemainingBits
    else
      some (pyShiftL q remainingBits, r)

end

/-- Master partial-correctness lemma for the division kernel and its
long-division loop, proved by a joint induction on the fuel:

  - whenever `_divModPositiveArgs fuel m n = some (q, r)` with `n > 0`,
    the division identity `q * n + r = m` holds, and for nonnegative `m`
    the remainder satisfies `0 ≤ r ≤ n` (note `r = n` is possible - the
    long-division loop exits on `r > n`, not `r ≥ n`);
  - whenever the long-division loop returns `some (q', r')` from state
    `(q, r, remainingBits)` with `pyBitLength n = k` and
    `pyBitLength r ≤ 2k + remainingBits`, then
    `q' * n + r' = q * 2^remainingBits * n + r`, `r'` is nonnegative if `r`
    is, and `r' ≤ n`. -/
theorem divModPA_longDiv_spec (fuel : Nat) :
    (∀ m n q r : Int, 0 < n →
      _divModPositiveArgs fuel m n = some (q, r) →
      q * n + r = m ∧ (0 ≤ m → 0 ≤ r ∧ r ≤ n)) ∧
    (∀ (k : Nat) (n q r : Int) (rb : Nat) (q' r' : Int), 0 < n →
      pyBitLength n = k → pyBitLength r ≤ 2 * k + rb →
      longDivLoop fuel k n q r rb = some (q', r') →
      q' * n + r' = q * 2 ^ rb * n + r ∧ (0 ≤ r → 0 ≤ r') ∧ r' ≤ n) := by
  induction fuel with
  | zero =>
    constructor
    · intro m n q r _ h
      simp [_divModPositiveArgs] at h
    · intro k n q r rb q' r' _ _ _ h
      simp [longDivLoop] at h
  | succ fuel ih =>
    obtain ⟨ihP, ihQ⟩ := ih
    constructor
    · -- the kernel at fuel + 1
      intro m n q r hn h
      rw [_divModPositiveArgs] at h
      by_cases h1 : pyBitLength n < 10000
      · -- (a) bailout
        simp only [h1, if_true, ite_true] at h
        rw [pyHostDivMod_pos m n hn] at h
        simp only [Option.some.injEq, Prod.mk.injEq] at h
        obtain ⟨hq, hr⟩ := h
        subst hq; subst hr
        refine ⟨?_, fun _ => ⟨Int.emod_nonneg m hn.ne.symm, (Int.emod_lt_of_pos m hn).le⟩⟩
        have := Int.ediv_add_emod m n
        linarith
      · by_cases h2 : pyBitLength m < pyBitLength n
        · -- (b) m shorter than n
          simp only [h1, h2, if_true, if_false, ite_true, ite_false] at h
          simp only [Option.some.injEq, Prod.mk.injEq] at h
          obtain ⟨hq, hr⟩ := h
          subst hq; subst hr
          refine ⟨by ring, fun hm => ⟨hm, le_of_lt ?_⟩⟩
          calc m < (2 : Int) ^ pyBitLength m := int_lt_two_pow_pyBitLength m hm
            _ ≤ 2 ^ (pyBitLength n - 1) := by
                apply pow_le_pow_right₀ (by norm_num)
                omega
            _ ≤ n := int_two_pow_pyBitLength_le n hn
        · by_cases h3 : pyBitLength m = pyBitLength n
          · -- (c) equal bit lengths
            simp only [h1, h2, eq_true h3, if_true, if_false, ite_true, ite_false] at h
            obtain ⟨hid, hlt, hnn⟩ := corrUp_spec (m.natAbs + 1) n 0 m q r h
            refine ⟨by linarith, fun hm => ⟨hnn hm, hlt.le⟩⟩
          · by_cases h4 : pyBitLength m < 2 * pyBitLength n
            · -- (d) short-excess case
              simp only [h1, h2, h3, h4, if_true, if_false, ite_true, ite_false] at h
              split at h
              · exact absurd h (by simp)
              · rename_i q0 r0 heq
                split at h
                · exact absurd h (by simp)
                · rename_i q1 r1 heq1
                  split at h
                  · exact absurd h (by simp)
                  · rename_i q2 r2 heq2
                    simp only [Option.some.injEq, Prod.mk.injEq] at h
                    obtain ⟨hq, hr⟩ := h
                    subst hq; subst hr
                    -- abbreviations
                    have hkge : pyBitLength n < pyBitLength m := by omega
                    have heb : pyBitLength n - (pyBitLength m - pyBitLength n)
                        ≤ pyBitLength n - 1 := by omega
                    have hnhi : 0 < (_splitHiLo n
                        (pyBitLength n - (pyBitLength m - pyBitLength n))).1 :=
                      splitHiLo_fst_pos n _ hn heb
                    obtain ⟨hid0, _⟩ := ihP _ _ _ _ hnhi heq
                    obtain ⟨hidD, hnnD⟩ := corrDown_spec _ n _ _ _ _ heq1
                    obtain ⟨hidU, hltU, hnnU⟩ := corrUp_spec _ n _ _ _ _ heq2
                    have hlor := lor_pyShiftL_add r0
                      (pyBitLength n - (pyBitLength m - pyBitLength n))
                      ((_splitHiLo m (pyBitLength n - (pyBitLength m - pyBitLength n))).2)
                      (splitHiLo_snd_nonneg _ _) (splitHiLo_snd_lt_pow _ _)
                    have hm := splitHiLo_eq m (pyBitLength n - (pyBitLength m - pyBitLength n))
                    have hnn := splitHiLo_eq n (pyBitLength n - (pyBitLength m - pyBitLength n))
                    refine ⟨?_, fun _ => ⟨hnnU hnnD, hltU.le⟩⟩
                    rw [hlor] at hidD
                    linear_combination hidU + hidD
                      + (2:Int) ^ (pyBitLength n - (pyBitLength m - pyBitLength n)) * hid0
                      + hm - q0 * hnn
            · by_cases h5 : pyBitLength m = 2 * pyBitLength n
              · -- (e) ideal case
                simp only [h1, h2, h3, h4, eq_true h5, if_true, if_false, ite_true,
                  ite_false] at h
                split at h
                · exact absurd h (by simp)
                · rename_i q10 r10 heq
                  split at h
                  · exact absurd h (by simp)
                  · rename_i q11 r11 heq1
                    split at h
                    · exact absurd h (by simp)
                    · rename_i q12 r12 heq2
                      split at h
                      · exact absurd h (by simp)
                      · rename_i q20 r20 heq3
                        split at h
                        · exact absurd h (by simp)
                        · rename_i q21 r21 heq4
                          split at h
                          · exact absurd h (by simp)
                          · rename_i q22 r22 heq5
                            simp only [Option.some.injEq, Prod.mk.injEq] at h
                            obtain ⟨hq, hr⟩ := h
                            subst hq; subst hr
                            have hk1 : 1 ≤ pyBitLength n := pyBitLength_pos n hn
                            have hfl : pyBitLength n / 2 ≤ pyBitLength n - 1 := by omega
                            have hnhi : 0 < (_splitHiLo n (pyBitLength n / 2)).1 :=
                              splitHiLo_fst_pos n _ hn hfl
                            obtain ⟨hid0, _⟩ := ihP _ _ _ _ hnhi heq
                            obtain ⟨hidD1, _⟩ := corrDown_spec _ n _ _ _ _ heq1
                            obtain ⟨hidB, _⟩ := corrUpBitLen_spec _ _ n _ _ _ _ heq2
                            obtain ⟨hid2, _⟩ := ihP _ _ _ _ hnhi heq3
                            obtain ⟨hidD2, hnnD2⟩ := corrDown_spec _ n _ _ _ _ heq4
                            obtain ⟨hidU2, hltU2, hnnU2⟩ := corrUp_spec _ n _ _ _ _ heq5
                            have hmid_lt : (_splitHiLo (_splitHiLo m (pyBitLength n)).2
                                (pyBitLength n - pyBitLength n / 2)).1
                                < (2:Int) ^ (pyBitLength n / 2) := by
                              rw [splitHiLo_fst_ediv]
                              apply ediv_pow_lt _ _ _ (splitHiLo_snd_nonneg _ _)
                              have hs : pyBitLength n - pyBitLength n / 2 + pyBitLength n / 2
                                  = pyBitLength n := by omega
                              rw [hs]
                              exact splitHiLo_snd_lt_pow m (pyBitLength n)
                            have hmid_nn : 0 ≤ (_splitHiLo (_splitHiLo m (pyBitLength n)).2
                                (pyBitLength n - pyBitLength n / 2)).1 :=
                              splitHiLo_fst_nonneg _ _ (splitHiLo_snd_nonneg _ _)
                            have hlor1 := lor_pyShiftL_add r10 (pyBitLength n / 2)
                              ((_splitHiLo (_splitHiLo m (pyBitLength n)).2
                                (pyBitLength n - pyBitLength n / 2)).1)
                              hmid_nn hmid_lt
                            have hlor2 := lor_pyShiftL_add r20
                              (pyBitLength n - pyBitLength n / 2)
                              ((_splitHiLo (_splitHiLo m (pyBitLength n)).2
                                (pyBitLength n - pyBitLength n / 2)).2)
                              (splitHiLo_snd_nonneg _ _) (splitHiLo_snd_lt_pow _ _)
                            have hparity := shift_parity (pyBitLength n) q20
                            have hm0 := splitHiLo_eq m (pyBitLength n)
                            have hm1 := splitHiLo_eq (_splitHiLo m (pyBitLength n)).2
                              (pyBitLength n - pyBitLength n / 2)
                            have hnn0 := splitHiLo_eq n (pyBitLength n / 2)
                            have hpowsplit : (2:Int) ^ (pyBitLength n / 2)
                                * (2:Int) ^ (pyBitLength n - pyBitLength n / 2)
                                = (2:Int) ^ pyBitLength n := by
                              rw [← pow_add]
                              congr 1
                              omega
                            refine ⟨?_, fun _ => ⟨hnnU2 hnnD2, hltU2.le⟩⟩
                            rw [hlor1] at hidD1
                            rw [hlor2] at hidD2
                            rw [pyShiftL_eq]
                            -- assemble the identity
                            linear_combination hidU2 + hidD2
                              - (if pyBitLength n % 2 = 1 then pyShiftL q20 1 else q20) * hnn0
                              + (_splitHiLo n (pyBitLength n / 2)).1 * hparity
                              + (2:Int) ^ (pyBitLength n - pyBitLength n / 2) * hid2
                              + (2:Int) ^ (pyBitLength n - pyBitLength n / 2) * hidB
                              + (2:Int) ^ (pyBitLength n - pyBitLength n / 2) * hidD1
                              - q10 * (2:Int) ^ (pyBitLength n - pyBitLength n / 2) * hnn0
                              + (q10 * (_splitHiLo n (pyBitLength n / 2)).1 + r10) * hpowsplit
                              + (2:Int) ^ pyBitLength n * hid0
                              + hm0 + hm1
              · -- (f) long division
                simp only [h1, h2, h3, h4, h5, if_true, if_false, ite_true, ite_false] at h
                have hgt : 2 * pyBitLength n < pyBitLength m := by omega
                have hinv : pyBitLength m ≤ 2 * pyBitLength n
                    + (pyBitLength m - 2 * pyBitLength n) := by omega
                obtain ⟨hid, hnnQ, hleQ⟩ := ihQ (pyBitLength n) n 0 m
                  (pyBitLength m - 2 * pyBitLength n) q r hn rfl hinv h
                refine ⟨?_, fun hm => ⟨hnnQ hm, hleQ⟩⟩
                linarith [hid]
    · -- the long-division loop at fuel + 1
      intro k n q r rb q' r' hn hk hinv h
      rw [longDivLoop] at h
      by_cases hguard : n < r
      · simp only [hguard, if_true, ite_true] at h
        split at h
        · exact absurd h (by simp)
        · rename_i qi r2 heq
          have hrpos : (0:Int) ≤ r := le_of_lt (lt_trans hn hguard)
          have hrhi_nn : 0 ≤ (_splitHiLo r (pyBitLength r - 2 * k)).1 :=
            splitHiLo_fst_nonneg _ _ hrpos
          obtain ⟨hidP, hrangeP⟩ := ihP _ _ _ _ hn heq
          obtain ⟨hr2nn, hr2le⟩ := hrangeP hrhi_nn
          have hlor := lor_pyShiftL_add r2 (pyBitLength r - 2 * k)
            ((_splitHiLo r (pyBitLength r - 2 * k)).2)
            (splitHiLo_snd_nonneg _ _) (splitHiLo_snd_lt_pow _ _)
          have hrlo_nn := splitHiLo_snd_nonneg r (pyBitLength r - 2 * k)
          have hrlo_lt := splitHiLo_snd_lt_pow r (pyBitLength r - 2 * k)
          have hnew_nn : 0 ≤ r2 * (2:Int) ^ (pyBitLength r - 2 * k)
              + (_splitHiLo r (pyBitLength r - 2 * k)).2 := by positivity
          have hnlt : n < (2:Int) ^ k := by
            have := int_lt_two_pow_pyBitLength n hn.le
            rwa [hk] at this
          -- bit length of the new remainder is at most k + newRemainingBits
          have hnewlen : pyBitLength (r2 * (2:Int) ^ (pyBitLength r - 2 * k)
              + (_splitHiLo r (pyBitLength r - 2 * k)).2) ≤ k + (pyBitLength r - 2 * k) := by
            rw [pyBitLength_le_iff]
            have hub : r2 * (2:Int) ^ (pyBitLength r - 2 * k)
                + (_splitHiLo r (pyBitLength r - 2 * k)).2
                < (2:Int) ^ (k + (pyBitLength r - 2 * k)) := by
              have hstep : (2:Int) ^ (k + (pyBitLength r - 2 * k))
                  = (2:Int) ^ k * (2:Int) ^ (pyBitLength r - 2 * k) := pow_add 2 _ _
              have hr2lt : r2 ≤ (2:Int) ^ k - 1 := by omega
              calc r2 * (2:Int) ^ (pyBitLength r - 2 * k)
                  + (_splitHiLo r (pyBitLength r - 2 * k)).2
                  ≤ ((2:Int) ^ k - 1) * (2:Int) ^ (pyBitLength r - 2 * k)
                    + (_splitHiLo r (pyBitLength r - 2 * k)).2 := by
                    have := mul_le_mul_of_nonneg_right hr2lt
                      (le_of_lt (two_pow_pos (pyBitLength r - 2 * k)))
                    linarith
                _ < ((2:Int) ^ k - 1) * (2:Int) ^ (pyBitLength r - 2 * k)
                    + (2:Int) ^ (pyBitLength r - 2 * k) := by linarith
                _ = (2:Int) ^ (k + (pyBitLength r - 2 * k)) := by rw [hstep]; ring
            have hcast := natCast_two_pow (k + (pyBitLength r - 2 * k))
            omega
          have hinv2 : pyBitLength (r2 * (2:Int) ^ (pyBitLength r - 2 * k)
              + (_splitHiLo r (pyBitLength r - 2 * k)).2)
              ≤ 2 * k + (pyBitLength r - 2 * k) := by omega
          rw [hlor] at h
          obtain ⟨hidQ, hnnQ, hleQ⟩ := ihQ k n _ _ _ q' r' hn hk hinv2 h
          refine ⟨?_, fun _ => hnnQ hnew_nn, hleQ⟩
          have hsplit := splitHiLo_eq r (pyBitLength r - 2 * k)
          have hbp : rb - (pyBitLength r - 2 * k) + (pyBitLength r - 2 * k) = rb := by
            omega
          have hpow : (2:Int) ^ (rb - (pyBitLength r - 2 * k))
              * (2:Int) ^ (pyBitLength r - 2 * k) = (2:Int) ^ rb := by
            rw [← pow_add, hbp]
          rw [pyShiftL_eq] at hidQ
          linear_combination hidQ
            + (2:Int) ^ (pyBitLength r - 2 * k) * hidP
            + hsplit + (q * n) * hpow
      · simp only [hguard, if_false, ite_false] at h
        simp only [Option.some.injEq, Prod.mk.injEq] at h
        obtain ⟨hq, hr⟩ := h
        subst hq; subst hr
        rw [pyShiftL_eq]
        exact ⟨by ring, fun hr => hr, not_lt.mp hguard⟩

/-- Right-shifting a nonnegative value shortens its bit length by the shift
amount. -/
theorem pyBitLength_ediv_le (x : Int) (s : Nat) (hx : 0 ≤ x) :
    pyBitLength (x / (2 : Int) ^ s) ≤ pyBitLength x - s := by
  rw [pyBitLength_le_iff]
  by_cases hs : s ≤ pyBitLength x
  · have hlt : x / (2 : Int) ^ s < (2 : Int) ^ (pyBitLength x - s) := by
      apply ediv_pow_lt x s _ hx
      have : s + (pyBitLength x - s) = pyBitLength x := by omega
      rw [this]
      exact int_lt_two_pow_pyBitLength x hx
    have hnn : 0 ≤ x / (2 : Int) ^ s := Int.ediv_nonneg hx (two_pow_pos s).le
    have hcast := natCast_two_pow (pyBitLength x - s)
    omega
  · have hz : x / (2 : Int) ^ s = 0 := by
      apply Int.ediv_eq_zero_of_lt hx
      calc x < (2 : Int) ^ pyBitLength x := int_lt_two_pow_pyBitLength x hx
        _ ≤ (2 : Int) ^ s := by
            apply pow_le_pow_right₀ (by norm_num)
            omega
    rw [hz]
    simp [pyBitLength_zero]

/-- Right-shifting any integer shortens its bit length by the shift amount,
up to one extra bit (the extra bit accounts for the rounding of negative
values toward minus infinity). -/
theorem pyBitLength_ediv_le_succ (x : Int) (s : Nat) :
    pyBitLength (x / (2 : Int) ^ s) ≤ pyBitLength x - s + 1 := by
  by_cases hx : 0 ≤ x
  · have := pyBitLength_ediv_le x s hx
    omega
  · push_neg at hx
    rw [pyBitLength_le_iff]
    have hlb : -(2 : Int) ^ pyBitLength x ≤ x := by
      have h1 : x.natAbs < 2 ^ pyBitLength x :=
        (pyBitLength_le_iff x (pyBitLength x)).mp (Nat.le_refl _)
      have hcast := natCast_two_pow (pyBitLength x)
      omega
    have hq_nonpos : x / (2 : Int) ^ s ≤ 0 := by
      have h0 : x / (2 : Int) ^ s ≤ 0 / (2 : Int) ^ s :=
        Int.ediv_le_ediv (two_pow_pos s) hx.le
      simpa using h0
    have hq_lb : -(2 : Int) ^ (pyBitLength x - s) ≤ x / (2 : Int) ^ s := by
      by_cases hs : s ≤ pyBitLength x
      · have hsplit : (2 : Int) ^ pyBitLength x
            = (2 : Int) ^ (pyBitLength x - s) * (2 : Int) ^ s := by
          rw [← pow_add]
          congr 1
          omega
        have hdiv := Int.ediv_le_ediv (two_pow_pos s) hlb
        rwa [hsplit, ← neg_mul, Int.mul_ediv_cancel _ (two_pow_pos s).ne.symm] at hdiv
      · push_neg at hs
        have h1 : pyBitLength x - s = 0 := by omega
        rw [h1, pow_zero]
        rw [Int.le_ediv_iff_mul_le (two_pow_pos s)]
        have h2 : (2 : Int) ^ pyBitLength x ≤ 2 ^ s :=
          pow_le_pow_right₀ (by norm_num) (by omega)
        linarith
    have hcast := natCast_two_pow (pyBitLength x - s)
    obtain ⟨qq, hqq⟩ : ∃ qq, x / (2 : Int) ^ s = qq := ⟨_, rfl⟩
    rw [hqq] at hq_nonpos hq_lb ⊢
    rw [← hcast] at hq_lb
    have h5 : (qq.natAbs : Int) ≤ ((2 ^ (pyBitLength x - s) : Nat) : Int) := by
      omega
    have h6 : qq.natAbs ≤ 2 ^ (pyBitLength x - s) := by
      exact_mod_cast h5
    have h7 : (2 : Nat) ^ (pyBitLength x - s + 1) = 2 * 2 ^ (pyBitLength x - s) := by
      ring
    have h8 : (1 : Nat) ≤ 2 ^ (pyBitLength x - s) := Nat.one_le_two_pow
    omega

/-- Folding a remainder `r2 ≤ n < 2^k` with `x` low bits keeps the bit
length at most `k + x`. -/
theorem newRemainder_bitLength (k x : Nat) (n r2 lo : Int)
    (hr2 : 0 ≤ r2) (hr2n : r2 ≤ n) (hnk : n < (2 : Int) ^ k)
    (hlo : 0 ≤ lo) (hlox : lo < (2 : Int) ^ x) :
    pyBitLength (r2 * (2 : Int) ^ x + lo) ≤ k + x := by
  rw [pyBitLength_le_iff]
  have hub : r2 * (2 : Int) ^ x + lo < (2 : Int) ^ (k + x) := by
    have hstep : (2 : Int) ^ (k + x) = (2 : Int) ^ k * (2 : Int) ^ x := pow_add 2 k x
    have hr2lt : r2 ≤ (2 : Int) ^ k - 1 := by omega
    calc r2 * (2 : Int) ^ x + lo
        ≤ ((2 : Int) ^ k - 1) * (2 : Int) ^ x + lo := by
          have := mul_le_mul_of_nonneg_right hr2lt (two_pow_pos x).le
          linarith
      _ < ((2 : Int) ^ k - 1) * (2 : Int) ^ x + (2 : Int) ^ x := by linarith
      _ = (2 : Int) ^ (k + x) := by rw [hstep]; ring
  have hnn : (0 : Int) ≤ r2 * (2 : Int) ^ x + lo := by positivity
  have hcast := natCast_two_pow (k + x)
  omega

/-- With its canonical local fuel, the downward correction loop always
returns a value. -/
theorem corrDown_canon_ne_none (n : Int) (hn : 0 < n) (q r : Int) :
    corrDown (r.natAbs + 1) n q r ≠ none := by
  have h := corrDown_total n hn (r.natAbs + 1) q r (Nat.le_refl _)
  intro hc
  rw [hc] at h
  simp at h

/-- With its canonical local fuel, the upward correction loop always
returns a value. -/
theorem corrUp_canon_ne_none (n : Int) (hn : 0 < n) (q r : Int) :
    corrUp (r.natAbs + 1) n q r ≠ none := by
  have h := corrUp_total n hn (r.natAbs + 1) q r (Nat.le_refl _)
  intro hc
  rw [hc] at h
  simp at h

/-- With its canonical local fuel, the bit-length correction loop always
returns a value on a nonnegative remainder. -/
theorem corrUpBitLen_canon_ne_none (n : Int) (hn : 0 < n) (q r : Int)
    (hr : 0 ≤ r) :
    corrUpBitLen (r.natAbs + 2) (pyBitLength n) n q r ≠ none := by
  have h := corrUpBitLen_total (pyBitLength n) n hn rfl (r.natAbs + 2) q r hr
    (Nat.le_refl _)
  intro hc
  rw [hc] at h
  simp at h

/-- Fuel sufficiency: with `n > 0`, the canonical fuel
`3 * pyBitLength m + 9 * pyBitLength n + 104` makes the kernel return a
value, and correspondingly for the long-division loop. -/
theorem divModPA_longDiv_total (fuel : Nat) :
    (∀ m n : Int, 0 < n →
      3 * pyBitLength m + 9 * pyBitLength n + 104 ≤ fuel →
      (_divModPositiveArgs fuel m n).isSome) ∧
    (∀ (k : Nat) (n q r : Int) (rb : Nat), 0 < n → pyBitLength n = k →
      (pyBitLength r ≤ k + rb ∨ pyBitLength r = 2 * k + rb) →
      rb + (pyBitLength r - (k + rb)) + 14 * k + 105 ≤ fuel →
      (longDivLoop fuel k n q r rb).isSome) := by
  induction fuel with
  | zero =>
    constructor
    · intro m n _ hf
      omega
    · intro k n q r rb _ _ _ hf
      omega
  | succ fuel ih =>
    obtain ⟨ihP, ihQ⟩ := ih
    constructor
    · intro m n hn hf
      rw [_divModPositiveArgs]
      by_cases h1 : pyBitLength n < 10000
      · simp only [h1, if_true, ite_true]
        rw [pyHostDivMod_pos m n hn]
        simp
      · by_cases h2 : pyBitLength m < pyBitLength n
        · simp only [h1, h2, if_true, if_false, ite_true, ite_false]
          simp
        · by_cases h3 : pyBitLength m = pyBitLength n
          · simp only [h1, h2, eq_true h3, if_true, if_false, ite_true, ite_false]
            exact corrUp_total n hn _ 0 m (Nat.le_refl _)
          · by_cases h4 : pyBitLength m < 2 * pyBitLength n
            · -- branch (d)
              simp only [h1, h2, h3, h4, if_true, if_false, ite_true, ite_false]
              have hK : 10000 ≤ pyBitLength n := by omega
              have hkd : 1 ≤ pyBitLength m - pyBitLength n := by omega
              have he1 : 1 ≤ pyBitLength n - (pyBitLength m - pyBitLength n) := by omega
              have heb : pyBitLength n - (pyBitLength m - pyBitLength n)
                  ≤ pyBitLength n - 1 := by omega
              have hnhi : 0 < (_splitHiLo n
                  (pyBitLength n - (pyBitLength m - pyBitLength n))).1 :=
                splitHiLo_fst_pos n _ hn heb
              have hmhbl : pyBitLength ((_splitHiLo m
                  (pyBitLength n - (pyBitLength m - pyBitLength n))).1)
                  ≤ pyBitLength m - (pyBitLength n - (pyBitLength m - pyBitLength n)) + 1 := by
                rw [splitHiLo_fst_ediv]
                exact pyBitLength_ediv_le_succ m _
              have hnhbl : pyBitLength ((_splitHiLo n
                  (pyBitLength n - (pyBitLength m - pyBitLength n))).1)
                  ≤ pyBitLength n - (pyBitLength n - (pyBitLength m - pyBitLength n)) := by
                rw [splitHiLo_fst_ediv]
                exact pyBitLength_ediv_le n _ hn.le
              have hsub := ihP ((_splitHiLo m
                  (pyBitLength n - (pyBitLength m - pyBitLength n))).1) _ hnhi (by omega)
              split
              · rename_i heq
                rw [heq] at hsub
                simp at hsub
              · rename_i q0 r0 heq
                split
                · rename_i heq1
                  exact absurd heq1 (corrDown_canon_ne_none n hn _ _)
                · rename_i q1 r1 heq1
                  split
                  · rename_i heq2
                    exact absurd heq2 (corrUp_canon_ne_none n hn _ _)
                  · simp
            · by_cases h5 : pyBitLength m = 2 * pyBitLength n
              · -- branch (e)
                simp only [h1, h2, h3, h4, eq_true h5, if_true, if_false, ite_true,
                  ite_false]
                have hK : 10000 ≤ pyBitLength n := by omega
                have hfl : pyBitLength n / 2 ≤ pyBitLength n - 1 := by omega
                have hnhi : 0 < (_splitHiLo n (pyBitLength n / 2)).1 :=
                  splitHiLo_fst_pos n _ hn hfl
                have hmhbl : pyBitLength ((_splitHiLo m (pyBitLength n)).1)
                    ≤ pyBitLength m - pyBitLength n + 1 := by
                  rw [splitHiLo_fst_ediv]
                  exact pyBitLength_ediv_le_succ m _
                have hnhbl : pyBitLength ((_splitHiLo n (pyBitLength n / 2)).1)
                    ≤ pyBitLength n - pyBitLength n / 2 := by
                  rw [splitHiLo_fst_ediv]
                  exact pyBitLength_ediv_le n _ hn.le
                have hsub := ihP ((_splitHiLo m (pyBitLength n)).1) _ hnhi (by omega)
                split
                · rename_i heq
                  rw [heq] at hsub
                  simp at hsub
                · rename_i q10 r10 heq
                  split
                  · rename_i heq1
                    exact absurd heq1 (corrDown_canon_ne_none n hn _ _)
                  · rename_i q11 r11 heq1
                    have hr11nn : 0 ≤ r11 := (corrDown_spec _ n _ _ _ _ heq1).2
                    split
                    · rename_i heq2
                      exact absurd heq2 (corrUpBitLen_canon_ne_none n hn _ _ hr11nn)
                    · rename_i q12 r12 heq2
                      have hr12bl : pyBitLength r12 < pyBitLength n :=
                        (corrUpBitLen_spec _ _ n _ _ _ _ heq2).2
                      have hsub2 := ihP r12 _ hnhi (by omega)
                      split
                      · rename_i heq3
                        rw [heq3] at hsub2
                        simp at hsub2
                      · rename_i q20 r20 heq3
                        split
                        · rename_i heq4
                          exact absurd heq4 (corrDown_canon_ne_none n hn _ _)
                        · rename_i q21 r21 heq4
                          split
                          · rename_i heq5
                            exact absurd heq5 (corrUp_canon_ne_none n hn _ _)
                          · simp
              · -- branch (f)
                simp only [h1, h2, h3, h4, h5, if_true, if_false, ite_true, ite_false]
                have hgt : 2 * pyBitLength n < pyBitLength m := by omega
                apply ihQ (pyBitLength n) n 0 m (pyBitLength m - 2 * pyBitLength n)
                  hn rfl (Or.inr (by omega)) (by omega)
    · intro k n q r rb hn hk hJ hf
      rw [longDivLoop]
      by_cases hguard : n < r
      · simp only [hguard, if_true, ite_true]
        have hrpos : (0:Int) ≤ r := le_of_lt (lt_trans hn hguard)
        have hk1 : 1 ≤ k := by
          rw [← hk]
          exact pyBitLength_pos n hn
        have hrhibl : pyBitLength ((_splitHiLo r (pyBitLength r - 2 * k)).1)
            ≤ pyBitLength r - (pyBitLength r - 2 * k) := by
          rw [splitHiLo_fst_ediv]
          exact pyBitLength_ediv_le r _ hrpos
        have hsub := ihP ((_splitHiLo r (pyBitLength r - 2 * k)).1) n hn
          (by rw [hk]; rcases hJ with hJl | hJr <;> omega)
        split
        · rename_i heq
          rw [heq] at hsub
          simp at hsub
        · rename_i qi r2 heq
          have hrhinn : 0 ≤ (_splitHiLo r (pyBitLength r - 2 * k)).1 :=
            splitHiLo_fst_nonneg _ _ hrpos
          obtain ⟨_, hrange⟩ := (divModPA_longDiv_spec fuel).1 _ n qi r2 hn heq
          obtain ⟨hr2nn, hr2le⟩ := hrange hrhinn
          have hnlt : n < (2:Int) ^ k := by
            have := int_lt_two_pow_pyBitLength n hn.le
            rwa [hk] at this
          have hlor := lor_pyShiftL_add r2 (pyBitLength r - 2 * k)
            ((_splitHiLo r (pyBitLength r - 2 * k)).2)
            (splitHiLo_snd_nonneg _ _) (splitHiLo_snd_lt_pow _ _)
          rw [hlor]
          have hnewbl : pyBitLength (r2 * (2:Int) ^ (pyBitLength r - 2 * k)
              + (_splitHiLo r (pyBitLength r - 2 * k)).2)
              ≤ k + (pyBitLength r - 2 * k) :=
            newRemainder_bitLength k _ n r2 _ hr2nn hr2le hnlt
              (splitHiLo_snd_nonneg _ _) (splitHiLo_snd_lt_pow _ _)
          by_cases hrb0 : pyBitLength r - 2 * k = 0
          · -- newRemainingBits = 0: the folded remainder is exactly r2 ≤ n,
            -- so the next loop test exits.
            rw [hrb0]
            have hlo0 : (_splitHiLo r 0).2 = 0 := by
              rw [splitHiLo_snd_emod, pow_zero, Int.emod_one]
            rw [hlo0, pow_zero]
            obtain ⟨fuel2, rfl⟩ : ∃ f2, fuel = f2 + 1 := ⟨fuel - 1, by omega⟩
            rw [longDivLoop]
            have hng : ¬ n < r2 * 1 + 0 := by
              push_neg
              linarith
            rw [if_neg hng]
            simp
          · apply ihQ k n _ _ (pyBitLength r - 2 * k) hn hk (Or.inl hnewbl)
            rcases hJ with hJl | hJr
            · -- `pyBitLength r ≤ k + rb`: later iterations
              have hrb : k + 1 ≤ rb := by omega
              have hrb' : pyBitLength r - 2 * k ≤ rb - k := by omega
              omega
            · -- `pyBitLength r = 2k + rb`: the first iteration
              have hrb' : pyBitLength r - 2 * k = rb := by omega
              omega
      · simp only [hguard, if_false, ite_false]
        simp

/-- The canonical recursion fuel for `_divModPositiveArgs`: with this much
fuel the embedded kernel never reports fuel exhaustion on a positive
divisor (`divModPositiveArgs_total`). -/
def dmFuel (m n : Int) : Nat := 3 * pyBitLength m + 9 * pyBitLength n + 104

/-- With fuel `dmFuel m n`, the kernel returns a value whenever `n > 0`:
the Python original terminates on every such input. -/
theorem divModPositiveArgs_total (m n : Int) (hn : 0 < n) :
    (_divModPositiveArgs (dmFuel m n) m n).isSome :=
  (divModPA_longDiv_total (dmFuel m n)).1 m n hn (Nat.le_refl _)

/-- A Python value, as far as the library's `isinstance` checks can
distinguish: genuine `int`s, `bool`s (instances of `int` by subclassing),
and representatives of non-`int` types. -/
inductive PyVal where
  | vInt : Int → PyVal
  | vBool : Bool → PyVal
  | vStr : String → PyVal
  | vNone : PyVal
deriving DecidableEq

/-- A raised Python exception, by kind. -/
inductive PyErr where
  | typeError : PyErr
  | valueError : PyErr
  | zeroDivisionError : PyErr
deriving DecidableEq

deriving instance DecidableEq for Except

/-- Python `isinstance(x, int)`: true for `int` and, by subclassing, for
`bool`. -/
def pyIsInstanceInt : PyVal → Bool
  | .vInt _ => true
  | .vBool _ => true
  | _ => false

/-- The integer value of a Python `int` (`True == 1`, `False == 0`); only
consulted after an `isinstance(·, int)` check succeeds. -/
def pyToInt : PyVal → Int
  | .vInt i => i
  | .vBool b => if b then 1 else 0
  | _ => 0

/-- The sign fix-up of `fastBigIntDivMod` (src lines 12-23), applied to
the kernel result `(q, r)` for `(abs(m), abs(n))`. -/
def divModSigns (m n q r : Int) : Int × Int :=
  if 0 < m ∧ 0 < n then (q, r)
  else if m < 0 ∧ n < 0 then (q, -r)
  else if r = 0 then (-q, r)
  else if 0 < m then (-(q + 1), n + r)
  else (-(q + 1), n - r)

/-- `fastBigIntDivMod(m, n)` (src lines 1-23).  An `.error` is a raised
exception; `.ok none` means only that the embedding's recursion fuel ran
out.  A zero divisor always drives the kernel into the host bailout
(src line 103), where `divmod(m, 0)` raises `ZeroDivisionError`; in the
embedding that host behaviour is `pyHostDivMod m 0 = none` (see
`divModPA_zero_divisor`), and with a zero divisor the wrapper converts the
kernel's `none` back into the host's exception. -/
def fastBigIntDivMod (fuel : Nat) (mv nv : PyVal) :
    Except PyErr (Option (Int × Int)) :=
  if pyIsInstanceInt mv && pyIsInstanceInt nv then
    let m := pyToInt mv
    let n := pyToInt nv
    match _divModPositiveArgs fuel |m| |n| with
    | some (q, r) => .ok (some (divModSigns m n q r))
    | none => if n = 0 then .error .zeroDivisionError else .ok none
  else .error .typeError

/-- With a zero divisor the kernel takes the small-operand bailout and
hands the pair to the host `divmod`, which raises `ZeroDivisionError`
(embedded as `pyHostDivMod m 0 = none`): the division-by-zero failure
originates from the host primitive, not from a library check. -/
theorem divModPA_zero_divisor (fuel : Nat) (m : Int) :
    _divModPositiveArgs (fuel + 1) m 0 = pyHostDivMod m 0 ∧
      pyHostDivMod m 0 = none := by
  constructor
  · rw [_divModPositiveArgs]
    have h0 : pyBitLength (0 : Int) < 10000 := by
      rw [pyBitLength_zero]
      omega
    simp only [h0, if_true, ite_true]
  · simp [pyHostDivMod]

/-- The brute-force loop of `_floorSqrtPositiveInt` (src lines 300-303):
`s = 1; while (s+1)*(s+1) <= n: s += 1`. -/
def bruteForceSqrt : Nat → Int → Int → Option Int
  | 0, _, _ => none
  | fuel + 1, s, n =>
    if (s + 1) * (s + 1) ≤ n then bruteForceSqrt fuel (s + 1) n else some s

/-- The downward correction loop of `_floorSqrtPositiveInt` (src lines
319-322): `while actualSquare > n: approx -= 1;
actualSquare -= ((approx << 1) | 1)`. -/
def newtonDecr : Nat → Int → Int → Int → Option Int
  | 0, _, _, _ => none
  | fuel + 1, n, approx, actualSquare =>
    if n < actualSquare then
      newtonDecr fuel n (approx - 1)
        (actualSquare - Int.lor (pyShiftL (approx - 1) 1) 1)
    else some approx

/-- The upward correction loop of `_floorSqrtPositiveInt` (src lines
324-327): `while actualSquare <= n: approx += 1;
actualSquare += ((approx << 1) | 1)`. -/
def newtonIncr : Nat → Int → Int → Int → Option Int
  | 0, _, _, _ => none
  | fuel + 1, n, approx, actualSquare =>
    if actualSquare ≤ n then
      newtonIncr fuel n (approx + 1)
        (actualSquare + Int.lor (pyShiftL (approx + 1) 1) 1)
    else some approx

/-- `_floorSqrtPositiveInt(n)` (src lines 287-328), with recursion fuel.
The internal division receives the canonical `dmFuel`; each correction
`while` loop and the brute-force loop receive local fuels that are always
sufficient (`bruteForceSqrt_spec`, `newtonDecr_spec`, `newtonIncr_spec`). -/
def _floorSqrtPositiveInt : Nat → Int → Option Int
  | 0, _ => none
  | fuel + 1, n =>
    if pyBitLength n ≤ 1 then some n
    else if pyBitLength n < 8 then bruteForceSqrt (n.natAbs + 1) 1 n
    else
      let resultPadBits := pyBitLength n / 4
      let padBits := 2 * resultPadBits
      match _floorSqrtPositiveInt fuel (pyShiftR n padBits) with
      | none => none
      | some approx0 =>
        let approx1 := pyShiftL approx0 resultPadBits
        match _divModPositiveArgs (dmFuel n approx1) n approx1 with
        | none => none
        | some (q, _) =>
          let approx := pyShiftR (approx1 + q) 1
          let actualSquare := approx * approx
          if n < actualSquare then
            newtonDecr (approx.natAbs + 2) n (approx - 1)
              (actualSquare - Int.lor (pyShiftL (approx - 1) 1) 1)
          else
            newtonIncr (n.natAbs + 2) n approx
              (actualSquare + Int.lor (pyShiftL approx 1) 1)

/-- `fastBigIntFloorSqrt(n)` (src lines 53-63). -/
def fastBigIntFloorSqrt (fuel : Nat) (nv : PyVal) : Except PyErr (Option Int) :=
  if pyIsInstanceInt nv then
    if pyToInt nv < 0 then .error .valueError
    else .ok (_floorSqrtPositiveInt fuel (pyToInt nv))
  else .error .typeError

/-- The brute-force loop, started at any `s ≥ 1` with `s² ≤ n` and enough
fuel, returns the floor square root. -/
theorem bruteForceSqrt_spec :
    ∀ (fuel : Nat) (s n : Int), 1 ≤ s → s * s ≤ n →
      n.natAbs + 1 ≤ fuel + s.natAbs →
      ∃ t, bruteForceSqrt fuel s n = some t ∧ 1 ≤ t ∧ t * t ≤ n ∧
        n < (t + 1) * (t + 1) := by
  intro fuel
  induction fuel with
  | zero =>
    intro s n hs hsq hf
    have hss : s ≤ s * s := le_mul_of_one_le_left (by omega) hs
    omega
  | succ fuel ih =>
    intro s n hs hsq hf
    rw [bruteForceSqrt]
    by_cases h : (s + 1) * (s + 1) ≤ n
    · simp only [h, if_true, ite_true]
      exact ih (s + 1) n (by omega) h (by omega)
    · simp only [h, if_false, ite_false]
      exact ⟨s, rfl, hs, hsq, lt_of_not_le h⟩

/-- The downward correction loop, entered at `a ≥ 0` with the running
square equal to `a²` and `n < (a+1)²`, returns the floor square root. -/
theorem newtonDecr_spec :
    ∀ (fuel : Nat) (n a : Int), 0 ≤ n → 0 ≤ a → n < (a + 1) * (a + 1) →
      a.natAbs + 2 ≤ fuel →
      ∃ t, newtonDecr fuel n a (a * a) = some t ∧ 0 ≤ t ∧ t * t ≤ n ∧
        n < (t + 1) * (t + 1) := by
  intro fuel
  induction fuel with
  | zero =>
    intro n a _ _ _ hf
    omega
  | succ fuel ih =>
    intro n a hn ha hub hf
    rw [newtonDecr]
    by_cases h : n < a * a
    · have ha1 : 1 ≤ a := by
        rcases (by omega : a = 0 ∨ 1 ≤ a) with h0 | h1
        · subst h0
          simp at h
          omega
        · exact h1
      have harg : a * a - Int.lor (pyShiftL (a - 1) 1) 1 = (a - 1) * (a - 1) := by
        rw [lor_pyShiftL_add (a - 1) 1 1 (by norm_num) (by norm_num)]
        ring
      simp only [h, if_true, ite_true, harg]
      have := ih n (a - 1) hn (by omega) (by simpa using h) (by omega)
      simpa using this
    · simp only [h, if_false, ite_false]
      exact ⟨a, rfl, ha, le_of_not_lt h, hub⟩

/-- The upward correction loop, entered at `a ≥ 0` with `a² ≤ n` and the
running square equal to `(a+1)²`, returns the floor square root. -/
theorem newtonIncr_spec :
    ∀ (fuel : Nat) (n a : Int), 0 ≤ a → a * a ≤ n →
      n.natAbs + 2 ≤ fuel + a.natAbs →
      ∃ t, newtonIncr fuel n a ((a + 1) * (a + 1)) = some t ∧ 0 ≤ t ∧
        t * t ≤ n ∧ n < (t + 1) * (t + 1) := by
  intro fuel
  induction fuel with
  | zero =>
    intro n a ha hsq hf
    have haa : a ≤ a * a := by
      rcases (by omega : a = 0 ∨ 1 ≤ a) with h0 | h1
      · simp [h0]
      · exact le_mul_of_one_le_left (by omega) h1
    omega
  | succ fuel ih =>
    intro n a ha hsq hf
    rw [newtonIncr]
    by_cases h : (a + 1) * (a + 1) ≤ n
    · have harg : (a + 1) * (a + 1) + Int.lor (pyShiftL (a + 1) 1) 1
          = ((a + 1) + 1) * ((a + 1) + 1) := by
        rw [lor_pyShiftL_add (a + 1) 1 1 (by norm_num) (by norm_num)]
        ring
      simp only [h, if_true, ite_true, harg]
      exact ih n (a + 1) (by omega) h (by omega)
    · simp only [h, if_false, ite_false]
      exact ⟨a, rfl, ha, hsq, lt_of_not_le h⟩

/-- Totality and correctness of `_floorSqrtPositiveInt`: with fuel
`pyBitLength n + 1` it returns the floor square root of any `n ≥ 0` —
the ±1 correction after the Newton step restores the exact bound even
though the internal division may be inexact. -/
theorem floorSqrtPA_spec :
    ∀ (fuel : Nat) (n : Int), 0 ≤ n → pyBitLength n + 1 ≤ fuel →
      ∃ s, _floorSqrtPositiveInt fuel n = some s ∧ 0 ≤ s ∧ s * s ≤ n ∧
        n < (s + 1) * (s + 1) := by
  intro fuel
  induction fuel with
  | zero =>
    intro n _ hf
    omega
  | succ fuel ih =>
    intro n hn hf
    rw [_floorSqrtPositiveInt]
    by_cases h1 : pyBitLength n ≤ 1
    · simp only [h1, if_true, ite_true]
      have hlt : n.natAbs < 2 ^ 1 := (pyBitLength_le_iff n 1).mp h1
      have h01 : n = 0 ∨ n = 1 := by omega
      rcases h01 with rfl | rfl
      · exact ⟨0, rfl, le_refl _, by norm_num, by norm_num⟩
      · exact ⟨1, rfl, by norm_num, by norm_num, by norm_num⟩
    · have hna : ¬ n.natAbs < 2 ^ 1 := fun hc => h1 ((pyBitLength_le_iff n 1).mpr hc)
      have hnpos : (0 : Int) < n := by omega
      by_cases h2 : pyBitLength n < 8
      · simp only [h1, h2, if_true, if_false, ite_true, ite_false]
        obtain ⟨t, ht, ht1, ht2, ht3⟩ :=
          bruteForceSqrt_spec (n.natAbs + 1) 1 n (le_refl _) (by omega) (by omega)
        exact ⟨t, ht, by omega, ht2, ht3⟩
      · simp only [h1, h2, if_false, ite_false]
        have h8 : 8 ≤ pyBitLength n := by omega
        have hx0 : 0 ≤ pyShiftR n (2 * (pyBitLength n / 4)) := by
          rw [pyShiftR_eq_ediv]
          exact Int.ediv_nonneg hn (two_pow_pos _).le
        have hxbl : pyBitLength (pyShiftR n (2 * (pyBitLength n / 4))) + 1 ≤ fuel := by
          rw [pyShiftR_eq_ediv]
          have := pyBitLength_ediv_le n (2 * (pyBitLength n / 4)) hn
          omega
        have hx1 : 1 ≤ pyShiftR n (2 * (pyBitLength n / 4)) := by
          rw [pyShiftR_eq_ediv]
          rw [Int.le_ediv_iff_mul_le (two_pow_pos _)]
          have hexp : (2 : Int) ^ (2 * (pyBitLength n / 4))
              ≤ (2 : Int) ^ (pyBitLength n - 1) :=
            pow_le_pow_right (by norm_num) (by omega)
          have hlow := int_two_pow_pyBitLength_le n hnpos
          linarith
        obtain ⟨s₀, hs0eq, hs00, hs0sq, hs0ub⟩ := ih _ hx0 hxbl
        have hs01 : 1 ≤ s₀ := by
          rcases (by omega : s₀ = 0 ∨ 1 ≤ s₀) with h0 | h1'
          · subst h0
            norm_num at hs0ub
            omega
          · exact h1'
        split
        · rename_i heq
          rw [heq] at hs0eq
          simp at hs0eq
        · rename_i s₀' heq
          rw [heq] at hs0eq
          obtain rfl : s₀' = s₀ := Option.some.inj hs0eq
          have h4exp : (4 : Int) ≤ (2 : Int) ^ (pyBitLength n / 4) := by
            have : (2 : Int) ^ 2 ≤ (2 : Int) ^ (pyBitLength n / 4) :=
              pow_le_pow_right (by norm_num) (by omega)
            norm_num at this
            exact this
          have ha1pos : 0 < pyShiftL s₀' (pyBitLength n / 4) := by
            rw [pyShiftL_eq]
            exact mul_pos (by omega) (two_pow_pos _)
          have ha1ge4 : (4 : Int) ≤ pyShiftL s₀' (pyBitLength n / 4) := by
            rw [pyShiftL_eq]
            calc (4 : Int) = 1 * 4 := by norm_num
              _ ≤ s₀' * 2 ^ (pyBitLength n / 4) :=
                  mul_le_mul hs01 h4exp (by norm_num) (by omega)
          have hxmul : pyShiftR n (2 * (pyBitLength n / 4))
              * (2 : Int) ^ (2 * (pyBitLength n / 4)) ≤ n := by
            rw [pyShiftR_eq_ediv]
            have hdm := Int.ediv_add_emod n ((2 : Int) ^ (2 * (pyBitLength n / 4)))
            have hmn := Int.emod_nonneg n
              (ne_of_gt (two_pow_pos (2 * (pyBitLength n / 4))))
            linarith
          have hsq1 : pyShiftL s₀' (pyBitLength n / 4)
              * pyShiftL s₀' (pyBitLength n / 4) ≤ n := by
            rw [pyShiftL_eq]
            have hsplit : (2 : Int) ^ (2 * (pyBitLength n / 4))
                = 2 ^ (pyBitLength n / 4) * 2 ^ (pyBitLength n / 4) := by
              rw [← pow_add]
              congr 1
              omega
            rw [hsplit] at hxmul
            nlinarith [two_pow_pos (pyBitLength n / 4)]
          have htot := divModPositiveArgs_total n (pyShiftL s₀' (pyBitLength n / 4)) ha1pos
          split
          · rename_i heq2
            rw [heq2] at htot
            simp at htot
          · rename_i q r heq2
            obtain ⟨hid, hrange⟩ := (divModPA_longDiv_spec _).1 n _ q r ha1pos heq2
            obtain ⟨hr0, hrle⟩ := hrange hn
            have hq0 : 0 ≤ q := by nlinarith
            have happ2 : 2 ≤ pyShiftR (pyShiftL s₀' (pyBitLength n / 4) + q) 1 := by
              rw [pyShiftR_eq_ediv, pow_one]
              omega
            by_cases hcmp : n < pyShiftR (pyShiftL s₀' (pyBitLength n / 4) + q) 1
                * pyShiftR (pyShiftL s₀' (pyBitLength n / 4) + q) 1
            · simp only [hcmp, if_true, ite_true]
              have harg : pyShiftR (pyShiftL s₀' (pyBitLength n / 4) + q) 1
                    * pyShiftR (pyShiftL s₀' (pyBitLength n / 4) + q) 1
                    - Int.lor (pyShiftL
                        (pyShiftR (pyShiftL s₀' (pyBitLength n / 4) + q) 1 - 1) 1) 1
                  = (pyShiftR (pyShiftL s₀' (pyBitLength n / 4) + q) 1 - 1)
                    * (pyShiftR (pyShiftL s₀' (pyBitLength n / 4) + q) 1 - 1) := by
                rw [lor_pyShiftL_add _ 1 1 (by norm_num) (by norm_num)]
                ring
              rw [harg]
              have hspec := newtonDecr_spec
                ((pyShiftR (pyShiftL s₀' (pyBitLength n / 4) + q) 1).natAbs + 2) n
                (pyShiftR (pyShiftL s₀' (pyBitLength n / 4) + q) 1 - 1) hn
                (by omega) (by simpa using hcmp) (by omega)
              simpa using hspec
            · simp only [hcmp, if_false, ite_false]
              have harg : pyShiftR (pyShiftL s₀' (pyBitLength n / 4) + q) 1
                    * pyShiftR (pyShiftL s₀' (pyBitLength n / 4) + q) 1
                    + Int.lor (pyShiftL
                        (pyShiftR (pyShiftL s₀' (pyBitLength n / 4) + q) 1) 1) 1
                  = (pyShiftR (pyShiftL s₀' (pyBitLength n / 4) + q) 1 + 1)
                    * (pyShiftR (pyShiftL s₀' (pyBitLength n / 4) + q) 1 + 1) := by
                rw [lor_pyShiftL_add _ 1 1 (by norm_num) (by norm_num)]
                ring
              rw [harg]
              exact newtonIncr_spec (n.natAbs + 2) n
                (pyShiftR (pyShiftL s₀' (pyBitLength n / 4) + q) 1)
                (by omega) (le_of_not_lt hcmp) (by omega)

/-- Python's native `str` on an `int`: sign followed by the decimal digits
of the absolute value. -/
def pyIntStr (n : Int) : String :=
  if n < 0 then "-" ++ Nat.repr n.natAbs else Nat.repr n.natAbs

/-- Python list indexing with negative-index wraparound (out-of-range
indices, unreachable here, read as `0`). -/
def pyListGet (xs : List Int) (i : Int) : Int :=
  if 0 ≤ i then xs.getD i.toNat 0 else xs.getD (xs.length - (-i).toNat) 0

/-- The `powers` list construction loop of `fastBigIntStrBase10`
(src lines 41-43): starting from `[10]`, append the square of the last
entry while twice its bit length is below that of `n`. -/
def powersLoop : Nat → Int → List Int → Option (List Int)
  | 0, _, _ => none
  | fuel + 1, n, powers =>
    if pyBitLength (powers.getLastD 0) * 2 < pyBitLength n then
      powersLoop fuel n (powers ++ [powers.getLastD 0 * powers.getLastD 0])
    else some powers

/-- `_toBase10StringHelper(n, powers, digitsLog2)` (src lines 257-285).
Below 20000 bits it renders `str(n)` left-padded with `'0'` to
`2^digitsLog2` characters (an empty pad if `str(n)` is already longer);
otherwise it splits by `powers[digitsLog2 - 1]` with the fast divmod
kernel (given its canonical fuel) and concatenates the two recursive
renderings.  The outer fuel only bounds the recursion depth. -/
def _toBase10StringHelper : Nat → Int → List Int → Nat → Option String
  | 0, _, _, _ => none
  | fuel + 1, n, powers, digitsLog2 =>
    if pyBitLength n < 20000 then
      let chars := pyIntStr n
      some (⟨List.replicate (pow2 digitsLog2 - chars.length) '0'⟩ ++ chars)
    else
      let p := pyListGet powers ((digitsLog2 : Int) - 1)
      match _divModPositiveArgs (dmFuel n p) n p with
      | none => none
      | some (lhs, rhs) =>
        match _toBase10StringHelper fuel lhs powers (digitsLog2 - 1),
            _toBase10StringHelper fuel rhs powers (digitsLog2 - 1) with
        | some a, some b => some (a ++ b)
        | _, _ => none

/-- The leading-zero strip of `fastBigIntStrBase10` (src lines 47-51):
the `for`/`break` leaves `i` at the first non-`'0'` position, or at the
last position when every character is `'0'`, and the result is
`chars[i:]`. -/
def stripLeadingZeros (chars : List Char) : List Char :=
  match chars.findIdx? (fun c => c != '0') with
  | some i => chars.drop i
  | none => chars.drop (chars.length - 1)

/-- `fastBigIntStrBase10(n)` on an `int` argument (src lines 35-51); the
`while` loop building `powers` receives a local fuel of
`pyBitLength n + 1`, which is always sufficient since the last entry's
bit length at least doubles on every iteration. -/
def strBase10Int : Nat → Int → Option String
  | 0, _ => none
  | fuel + 1, n =>
    if n = 0 then some "0"
    else if n < 0 then
      match strBase10Int fuel (-n) with
      | none => none
      | some s => some ("-" ++ s)
    else
      match powersLoop (pyBitLength n + 1) n [10] with
      | none => none
      | some powers =>
        match _toBase10StringHelper fuel n powers powers.length with
        | none => none
        | some chars => some ⟨stripLeadingZeros chars.data⟩

/-- `fastBigIntStrBase10(n)` (src lines 25-51): typecheck, then convert. -/
def fastBigIntStrBase10 (fuel : Nat) (nv : PyVal) : Except PyErr (Option String) :=
  if pyIsInstanceInt nv then .ok (strBase10Int fuel (pyToInt nv))
  else .error .typeError

/-- With a zero divisor the kernel returns no value at any fuel: the
`none` of `pyHostDivMod m 0` (the host's `ZeroDivisionError`). -/
theorem divModPA_zero_all (fuel : Nat) (m : Int) :
    _divModPositiveArgs fuel m 0 = none := by
  cases fuel with
  | zero => rfl
  | succ f => exact ((divModPA_zero_divisor f m).1).trans (divModPA_zero_divisor f m).2

/-- Squaring, used to build the concrete powers `10^(2^e)` of the
counterexamples by iterated squaring, so that they reduce in the kernel. -/
def sqInt (x : Int) : Int := x * x

/-- `10^(2^e)` by `e` squarings: the entries of the stringifier's `powers`
list. -/
def tenToPow2 (e : Nat) : Int := sqInt^[e] 10

/-- The failing dividend of claims C1 and C2: `2^20000 + 2^9999`. -/
def c1m : Int := ((1 <<< 20000 : Nat) : Int) + ((1 <<< 9999 : Nat) : Int)

/-- The failing divisor of claims C1 and C2: `2^9999`, of bit length
10000, at the kernel's bailout threshold. -/
def c1n : Int := ((1 <<< 9999 : Nat) : Int)

/-- The intermediate value the stringifier feeds to the buggy
long-division branch on input `c3n`: `10^4096 * (2^13608 + 1)`,
of bit length `27215 > 2 * 13607`. -/
def c3v : Int := tenToPow2 12 * (((1 <<< 13608 : Nat) : Int) + 1)

/-- The failing input of claim C3: `(2^13608 + 1) * 10^12288`. -/
def c3n : Int := c3v * tenToPow2 13

/-- Claim C1: refuted (code bug).  On `m = 2^20000 + 2^9999`,
`n = 2^9999` the kernel takes the long-division branch and returns the
remainder `r = n` with the quotient one short, violating `0 ≤ r < n`:
the loop `while r > n` (src line 240) exits one subtraction early when
`r` lands exactly on `n`.  The second conjunct shows `m = (q+1)·n`
exactly, so the correct answer is `(q+1, 0)`. -/
theorem c1_kernel_remainder_equals_divisor :
    _divModPositiveArgs (dmFuel c1m c1n) c1m c1n
      = some (((1 <<< 10001 : Nat) : Int), c1n) ∧
    c1m = (((1 <<< 10001 : Nat) : Int) + 1) * c1n ∧
    0 < c1n := by
  refine ⟨by decide, by decide, by decide⟩

/-- Claim C2: refuted (code bug).  For positive arguments the public
wrapper returns the kernel result unchanged, so on `m = 2^20000 + 2^9999`,
`n = 2^9999` it returns a pair with remainder `n` itself: since
`m = (q+1)·n`, floored semantics (and the host divmod) give `(q+1, 0)`,
and the required bound `0 ≤ r < n` fails. -/
theorem c2_public_divmod_wrong :
    fastBigIntDivMod (dmFuel c1m c1n) (.vInt c1m) (.vInt c1n)
      = .ok (some (((1 <<< 10001 : Nat) : Int), c1n)) ∧
    c1m = (((1 <<< 10001 : Nat) : Int) + 1) * c1n ∧
    ¬ (c1n < c1n) := by
  refine ⟨by decide, by decide, by decide⟩

/-- Claim C3: refuted (code bug).  On `n₀ = (2^13608 + 1)·10^12288` the
stringifier builds `powers = [10, 10^2, …, 10^8192]` (first conjunct),
splits `n₀` by `10^8192` into `(v, 0)` with `v = 10^4096·(2^13608 + 1)`
(second conjunct), recurses on `v` (27215 ≥ 20000 bits, third conjunct),
and the kernel call `v ÷ 10^4096` falls into the buggy long-division
branch and returns remainder `10^4096`, equal to the divisor instead of
`<` it (fourth conjunct).  Both rendered halves then overflow their
4096-character slots by one digit (`2^13608 ≥ 10^4096`, fifth conjunct;
the pad `'0' * (4096 - 4097)` is empty), so the output has 16386
characters and parses to `2^13608·10^12289 + 10^12288`, which is not
`n₀` (last conjunct). -/
theorem c3_stringifier_slot_overflow :
    powersLoop (pyBitLength c3n + 1) c3n [10]
      = some ((List.range 14).map tenToPow2) ∧
    _divModPositiveArgs (dmFuel c3n (tenToPow2 13)) c3n (tenToPow2 13)
      = some (c3v, 0) ∧
    20000 ≤ pyBitLength c3v ∧
    _divModPositiveArgs (dmFuel c3v (tenToPow2 12)) c3v (tenToPow2 12)
      = some (((1 <<< 13608 : Nat) : Int), tenToPow2 12) ∧
    tenToPow2 12 ≤ ((1 <<< 13608 : Nat) : Int) ∧
    ((1 <<< 13608 : Nat) : Int) * (10 * tenToPow2 12 * tenToPow2 13)
        + tenToPow2 12 * tenToPow2 13 ≠ c3n := by
  refine ⟨by decide, by decide, by decide, by decide, by decide, by decide⟩

/-- Claim C4: confirmed.  For every `n ≥ 0`, `fastBigIntFloorSqrt`
returns an `s` with `s² ≤ n < (s+1)²`: the ±1 correction loops after the
Newton step restore the exact bound from any approximation. -/
theorem c4_floor_sqrt_correct (n : Int) (hn : 0 ≤ n) :
    ∃ s, fastBigIntFloorSqrt (pyBitLength n + 1) (.vInt n) = .ok (some s) ∧
      s * s ≤ n ∧ n < (s + 1) * (s + 1) := by
  obtain ⟨s, hs, _, h2, h3⟩ := floorSqrtPA_spec (pyBitLength n + 1) n hn (le_refl _)
  refine ⟨s, ?_, h2, h3⟩
  simp only [fastBigIntFloorSqrt, pyIsInstanceInt, pyToInt, if_true, ite_true]
  rw [if_neg (not_lt.mpr hn), hs]

/-- Witness for C4 at `n = 15` (the brute-force range): the returned
root is `3`. -/
theorem c4_witness :
    (0 : Int) ≤ 15 ∧
    ∃ s, fastBigIntFloorSqrt (pyBitLength (15 : Int) + 1) (.vInt 15)
        = .ok (some s) ∧ s * s ≤ 15 ∧ (15 : Int) < (s + 1) * (s + 1) :=
  ⟨by norm_num, c4_floor_sqrt_correct 15 (by norm_num)⟩

/-- Claim C6: confirmed.  `fastBigIntDivMod` raises `TypeError` exactly
when an argument fails `isinstance(·, int)`; with integer arguments and
`n = 0` it raises `ZeroDivisionError`, and that failure originates from
the host `divmod` reached through the small-operand bailout
(`_divModPositiveArgs(m, 0)` equals `pyHostDivMod m 0`, which is the
raising host call), not from a library check. -/
theorem c6_divmod_errors :
    (∀ (fuel : Nat) (mv nv : PyVal),
      fastBigIntDivMod fuel mv nv = .error .typeError ↔
        ¬ (pyIsInstanceInt mv = true ∧ pyIsInstanceInt nv = true)) ∧
    (∀ (fuel : Nat) (mv nv : PyVal), pyIsInstanceInt mv = true →
      pyIsInstanceInt nv = true → pyToInt nv = 0 →
      fastBigIntDivMod fuel mv nv = .error .zeroDivisionError) ∧
    (∀ (fuel : Nat) (m : Int),
      _divModPositiveArgs (fuel + 1) m 0 = pyHostDivMod m 0 ∧
        pyHostDivMod m 0 = none) := by
  refine ⟨?_, ?_, fun fuel m => divModPA_zero_divisor fuel m⟩
  · intro fuel mv nv
    by_cases hm : pyIsInstanceInt mv <;> by_cases hn : pyIsInstanceInt nv
    · by_cases hz : pyToInt nv = 0
      · simp [fastBigIntDivMod, hm, hn, hz, divModPA_zero_all]
      · rcases hk : _divModPositiveArgs fuel |pyToInt mv| |pyToInt nv| with _ | ⟨q, r⟩ <;>
          simp [fastBigIntDivMod, hm, hn, hk, hz]
    · simp [fastBigIntDivMod, hm, hn]
    · simp [fastBigIntDivMod, hm, hn]
    · simp [fastBigIntDivMod, hm, hn]
  · intro fuel mv nv h1 h2 h3
    have habs : |pyToInt nv| = 0 := by rw [h3]; rfl
    simp [fastBigIntDivMod, h1, h2, habs, divModPA_zero_all, h3]

/-- Witness for C6: `fastBigIntDivMod(5, 0)` raises `ZeroDivisionError`. -/
theorem c6_witness :
    fastBigIntDivMod 7 (.vInt 5) (.vInt 0) = .error .zeroDivisionError :=
  c6_divmod_errors.2.1 7 (.vInt 5) (.vInt 0) rfl rfl rfl

/-- Claim C7: confirmed.  `fastBigIntFloorSqrt` raises `TypeError` iff
its argument is not an `int`, raises `ValueError` iff the argument is a
negative `int`, and returns (does not raise) exactly otherwise;
`fastBigIntStrBase10` raises `TypeError` iff its argument is not an
`int`, and raises nothing else. -/
theorem c7_error_iffs :
    (∀ (fuel : Nat) (nv : PyVal),
      fastBigIntFloorSqrt fuel nv = .error .typeError ↔
        pyIsInstanceInt nv = false) ∧
    (∀ (fuel : Nat) (nv : PyVal),
      fastBigIntFloorSqrt fuel nv = .error .valueError ↔
        (pyIsInstanceInt nv = true ∧ pyToInt nv < 0)) ∧
    (∀ (fuel : Nat) (nv : PyVal),
      (∃ x, fastBigIntFloorSqrt fuel nv = .ok x) ↔
        (pyIsInstanceInt nv = true ∧ 0 ≤ pyToInt nv)) ∧
    (∀ (fuel : Nat) (nv : PyVal),
      fastBigIntStrBase10 fuel nv = .error .typeError ↔
        pyIsInstanceInt nv = false) ∧
    (∀ (fuel : Nat) (nv : PyVal) (e : PyErr),
      fastBigIntStrBase10 fuel nv = .error e → e = .typeError) := by
  refine ⟨?_, ?_, ?_, ?_, ?_⟩
  · intro fuel nv
    by_cases hi : pyIsInstanceInt nv
    · by_cases hs : pyToInt nv < 0 <;> simp [fastBigIntFloorSqrt, hi, hs]
    · simp [fastBigIntFloorSqrt, hi]
  · intro fuel nv
    by_cases hi : pyIsInstanceInt nv
    · by_cases hs : pyToInt nv < 0 <;> simp [fastBigIntFloorSqrt, hi, hs]
    · simp [fastBigIntFloorSqrt, hi]
  · intro fuel nv
    by_cases hi : pyIsInstanceInt nv
    · by_cases hs : pyToInt nv < 0
      · simp [fastBigIntFloorSqrt, hi, hs, not_le.mpr hs]
      · push_neg at hs
        simp [fastBigIntFloorSqrt, hi, not_lt.mpr hs, hs]
    · simp [fastBigIntFloorSqrt, hi]
  · intro fuel nv
    by_cases hi : pyIsInstanceInt nv <;> simp [fastBigIntStrBase10, hi]
  · intro fuel nv e
    intro h
    simp only [fastBigIntStrBase10] at h
    by_cases hi : pyIsInstanceInt nv
    · rw [if_pos hi] at h
      exact Except.noConfusion h
    · rw [if_neg hi] at h
      exact (Except.error.inj h).symm

/-- Witness for C7: `fastBigIntStrBase10` on a non-`int` raises exactly
`TypeError`. -/
theorem c7_witness : PyErr.typeError = PyErr.typeError :=
  c7_error_iffs.2.2.2.2 3 (.vStr "x") .typeError rfl

/-- Claim C8: confirmed.  In the branch with
`bit_length(n) < bit_length(m) < 2·bit_length(n)` and `n` above the
bailout threshold, `n_hi = n >> (bit_length(n) - k)` keeps the top set
bit of `n`, so `n_hi ≥ 1` and the debug `print` guarded by `n_hi == 0`
(src lines 146-155) is unreachable: the library performs no output. -/
theorem c8_no_logging (m n : Int) (hn : 0 < n)
    (hbail : ¬ pyBitLength n < 10000)
    (hlt : pyBitLength n < pyBitLength m)
    (hlt2 : pyBitLength m < 2 * pyBitLength n) :
    1 ≤ (_splitHiLo n (pyBitLength n - (pyBitLength m - pyBitLength n))).1 := by
  have h := splitHiLo_fst_pos n
    (pyBitLength n - (pyBitLength m - pyBitLength n)) hn (by omega)
  omega

/-- Witness for C8 at `m = 2^10000`, `n = 2^9999`. -/
theorem c8_witness :
    0 < ((1 <<< 9999 : Nat) : Int) ∧
    ¬ pyBitLength ((1 <<< 9999 : Nat) : Int) < 10000 ∧
    pyBitLength ((1 <<< 9999 : Nat) : Int)
      < pyBitLength ((1 <<< 10000 : Nat) : Int) ∧
    pyBitLength ((1 <<< 10000 : Nat) : Int)
      < 2 * pyBitLength ((1 <<< 9999 : Nat) : Int) ∧
    1 ≤ (_splitHiLo ((1 <<< 9999 : Nat) : Int)
      (pyBitLength ((1 <<< 9999 : Nat) : Int)
        - (pyBitLength ((1 <<< 10000 : Nat) : Int)
          - pyBitLength ((1 <<< 9999 : Nat) : Int)))).1 :=
  ⟨by decide, by decide, by decide, by decide,
    c8_no_logging ((1 <<< 10000 : Nat) : Int) ((1 <<< 9999 : Nat) : Int)
      (by decide) (by decide) (by decide) (by decide)⟩

/-- Claim C9: confirmed.  Booleans pass the `isinstance(·, int)` checks
(bool subclasses int), so all three entry points accept them:
`fastBigIntDivMod(True, True) = (1, 0)`,
`fastBigIntStrBase10(False) = "0"`, `fastBigIntFloorSqrt(True) = 1`. -/
theorem c9_bools_accepted :
    fastBigIntDivMod 1 (.vBool true) (.vBool true) = .ok (some (1, 0)) ∧
    fastBigIntStrBase10 1 (.vBool false) = .ok (some "0") ∧
    fastBigIntFloorSqrt 1 (.vBool true) = .ok (some 1) := by
  refine ⟨by decide, by decide, by decide⟩

/-- Claim C10: confirmed.  For `n` of bit length ≥ 8, the recursive
half-width approximation shifted back up — the divisor of the internal
Newton division — is at least 1, so `_divModPositiveArgs(n, approx)`
never receives a zero divisor. -/
theorem c10_newton_divisor_positive (n : Int) (hn : 0 ≤ n)
    (h8 : 8 ≤ pyBitLength n) :
    ∃ approx0, _floorSqrtPositiveInt (pyBitLength n)
        (pyShiftR n (2 * (pyBitLength n / 4))) = some approx0 ∧
      1 ≤ pyShiftL approx0 (pyBitLength n / 4) := by
  have hnpos : (0 : Int) < n := by
    rcases lt_or_eq_of_le hn with h | h
    · exact h
    · rw [← h, pyBitLength_zero] at h8
      omega
  have hx0 : 0 ≤ pyShiftR n (2 * (pyBitLength n / 4)) := by
    rw [pyShiftR_eq_ediv]
    exact Int.ediv_nonneg hn (two_pow_pos _).le
  have hxbl : pyBitLength (pyShiftR n (2 * (pyBitLength n / 4))) + 1
      ≤ pyBitLength n := by
    rw [pyShiftR_eq_ediv]
    have := pyBitLength_ediv_le n (2 * (pyBitLength n / 4)) hn
    omega
  have hx1 : 1 ≤ pyShiftR n (2 * (pyBitLength n / 4)) := by
    rw [pyShiftR_eq_ediv]
    rw [Int.le_ediv_iff_mul_le (two_pow_pos _)]
    have hexp : (2 : Int) ^ (2 * (pyBitLength n / 4))
        ≤ (2 : Int) ^ (pyBitLength n - 1) :=
      pow_le_pow_right (by norm_num) (by omega)
    have hlow := int_two_pow_pyBitLength_le n hnpos
    linarith
  obtain ⟨s, hs, hs0, hsq, hub⟩ := floorSqrtPA_spec (pyBitLength n) _ hx0 hxbl
  have hs1 : 1 ≤ s := by
    rcases (by omega : s = 0 ∨ 1 ≤ s) with h0 | h1
    · subst h0
      norm_num at hub
      omega
    · exact h1
  refine ⟨s, hs, ?_⟩
  rw [pyShiftL_eq]
  have h2p : (1 : Int) ≤ 2 ^ (pyBitLength n / 4) := by
    have := two_pow_pos (pyBitLength n / 4)
    omega
  calc (1 : Int) = 1 * 1 := by norm_num
    _ ≤ s * 2 ^ (pyBitLength n / 4) := mul_le_mul hs1 h2p (by norm_num) (by omega)

/-- Witness for C10 at `n = 255`: the recursive approximation is `3`,
shifted to `12 ≥ 1`. -/
theorem c10_witness :
    (0 : Int) ≤ 255 ∧ 8 ≤ pyBitLength (255 : Int) ∧
    ∃ approx0, _floorSqrtPositiveInt (pyBitLength (255 : Int))
        (pyShiftR 255 (2 * (pyBitLength (255 : Int) / 4))) = some approx0 ∧
      1 ≤ pyShiftL approx0 (pyBitLength (255 : Int) / 4) :=
  ⟨by norm_num, by decide, c10_newton_divisor_positive 255 (by norm_num) (by decide)⟩

end PyFastBigInt